import Mathlib

/-!
Verification of
`qiskit_experiments/library/randomized_benchmarking/data/generate_clifford_data.py`.

The script precomputes lookup tables for the 1-qubit (24 elements) and
2-qubit (11520 elements) Clifford groups.  Group elements themselves are
supplied by an external group-algebra collaborator (qiskit's `Clifford`
class); this development embeds the script's own algorithms shallowly and
treats the collaborator as an abstract family of functions
`el : Nat → E` (the enumerator `CliffordUtils.clifford_*_qubit`),
`cp : E → E → E` (`Clifford.compose`), `adj : E → E` (`Clifford.adjoint`)
and `key : E → K` (the canonical key `_hash_cliff`).

The canonical hasher itself (`np.packbits(cliff.tableau).tobytes()`) is
embedded concretely on flattened boolean tableaus.
-/

namespace CliffordData

/-! ### Canonical hasher: `_hash_cliff(cliff) = np.packbits(cliff.tableau).tobytes()`

`np.packbits` flattens the boolean array, pads it with zeros to a multiple
of eight bits and packs consecutive groups of eight bits into bytes, the
first bit of a group becoming the most significant bit of its byte. -/

/-- Value of a big-endian bit string (first bit is most significant). -/
def bitsVal (bits : List Bool) : Nat :=
  bits.foldl (fun acc b => 2 * acc + (if b then 1 else 0)) 0

/-- Pad a bit string with `false` up to length 8 (`np.packbits` zero padding). -/
def padTo8 (bits : List Bool) : List Bool :=
  bits ++ List.replicate (8 - bits.length) false

/-- Worker for `packbits`; the fuel is an upper bound on the number of
8-bit groups and is instantiated with the length of the bit string. -/
def packbitsAux : Nat → List Bool → List Nat
  | _, [] => []
  | 0, _ :: _ => []
  | fuel + 1, b :: rest =>
      bitsVal (padTo8 ((b :: rest).take 8)) :: packbitsAux fuel ((b :: rest).drop 8)

/-- Model of `np.packbits` on a flattened boolean array, as a list of byte values. -/
def packbits (bits : List Bool) : List Nat :=
  packbitsAux bits.length bits

/-- A Clifford element as seen by the hasher: its boolean `tableau`,
flattened in row-major order.  For an `n`-qubit Clifford the tableau has
the fixed shape `(2n, 2n+1)`, so two elements on the same number of qubits
have tableaus of the same length. -/
structure CliffordRepr where
  tableau : List Bool
deriving DecidableEq

/-- The hasher `_hash_cliff(cliff)`: the packed bytes of the tableau. -/
def _hash_cliff (c : CliffordRepr) : List Nat :=
  packbits c.tableau

theorem bitsVal_go (l : List Bool) (acc : Nat) :
    l.foldl (fun a b => 2 * a + (if b then 1 else 0)) acc
      = acc * 2 ^ l.length + bitsVal l := by
  induction l generalizing acc with
  | nil => simp [bitsVal]
  | cons b t ih =>
      simp only [List.foldl_cons, List.length_cons, bitsVal]
      rw [ih (2 * acc + (if b then 1 else 0)), ih (2 * 0 + (if b then 1 else 0))]
      ring

theorem bitsVal_cons (b : Bool) (l : List Bool) :
    bitsVal (b :: l) = (if b then 1 else 0) * 2 ^ l.length + bitsVal l := by
  have h := bitsVal_go l (2 * 0 + (if b then 1 else 0))
  simpa [bitsVal] using h

theorem bitsVal_lt (l : List Bool) : bitsVal l < 2 ^ l.length := by
  induction l with
  | nil => simp [bitsVal]
  | cons b t ih =>
      rw [bitsVal_cons]
      simp only [List.length_cons, pow_succ]
      cases b <;> simp <;> omega

theorem bitsVal_injOn : ∀ {l₁ l₂ : List Bool},
    l₁.length = l₂.length → bitsVal l₁ = bitsVal l₂ → l₁ = l₂ := by
  intro l₁
  induction l₁ with
  | nil =>
      intro l₂ hlen _
      cases l₂ with
      | nil => rfl
      | cons b t => simp at hlen
  | cons b₁ t₁ ih =>
      intro l₂ hlen hval
      cases l₂ with
      | nil => simp at hlen
      | cons b₂ t₂ =>
          simp only [List.length_cons, Nat.add_right_cancel_iff] at hlen
          rw [bitsVal_cons, bitsVal_cons, hlen] at hval
          have ht₁ := bitsVal_lt t₁
          have ht₂ := bitsVal_lt t₂
          rw [hlen] at ht₁
          have hb : b₁ = b₂ := by
            by_contra hne
            cases b₁ <;> cases b₂ <;> simp_all <;> omega
          subst hb
          have : bitsVal t₁ = bitsVal t₂ := by
            cases b₁ <;> simp at hval <;> omega
          rw [ih hlen this]

theorem padTo8_length {l : List Bool} (h : l.length ≤ 8) :
    (padTo8 l).length = 8 := by
  simp [padTo8]; omega

theorem padTo8_injOn {l₁ l₂ : List Bool} (hlen : l₁.length = l₂.length)
    (h : padTo8 l₁ = padTo8 l₂) : l₁ = l₂ := by
  have := List.append_inj h (by rw [hlen])
  exact this.1

theorem packbitsAux_injOn : ∀ (fuel : Nat) {l₁ l₂ : List Bool},
    l₁.length = l₂.length → l₁.length ≤ fuel →
    packbitsAux fuel l₁ = packbitsAux fuel l₂ → l₁ = l₂ := by
  intro fuel
  induction fuel with
  | zero =>
      intro l₁ l₂ hlen hle _
      cases l₁ with
      | nil => cases l₂ with
        | nil => rfl
        | cons b t => simp at hlen
      | cons b t => simp at hle
  | succ f ih =>
      intro l₁ l₂ hlen hle heq
      cases l₁ with
      | nil =>
          cases l₂ with
          | nil => rfl
          | cons b t => simp at hlen
      | cons b₁ t₁ =>
          cases l₂ with
          | nil => simp at hlen
          | cons b₂ t₂ =>
              simp only [packbitsAux, List.cons.injEq] at heq
              obtain ⟨hhead, htail⟩ := heq
              have htlen : t₁.length = t₂.length := by simpa using hlen
              have htake_len : ((b₁ :: t₁).take 8).length = ((b₂ :: t₂).take 8).length := by
                simp [List.length_take, htlen]
              have htake8 : ((b₁ :: t₁).take 8).length ≤ 8 := by
                simp [List.length_take]
              have hpad_len : (padTo8 ((b₁ :: t₁).take 8)).length
                  = (padTo8 ((b₂ :: t₂).take 8)).length := by
                rw [padTo8_length htake8, padTo8_length (by rw [← htake_len]; exact htake8)]
              have hpad := bitsVal_injOn hpad_len hhead
              have htake := padTo8_injOn htake_len hpad
              have hdrop_len : ((b₁ :: t₁).drop 8).length = ((b₂ :: t₂).drop 8).length := by
                simp [List.length_drop, htlen]
              have hdrop_le : ((b₁ :: t₁).drop 8).length ≤ f := by
                simp only [List.length_drop]
                simp only [List.length_cons] at hle ⊢
                omega
              have hdrop := ih hdrop_len hdrop_le htail
              have h₁ := List.take_append_drop 8 (b₁ :: t₁)
              have h₂ := List.take_append_drop 8 (b₂ :: t₂)
              rw [← h₁, ← h₂, htake, hdrop]

theorem packbits_injOn {l₁ l₂ : List Bool} (hlen : l₁.length = l₂.length)
    (h : packbits l₁ = packbits l₂) : l₁ = l₂ := by
  unfold packbits at h
  rw [hlen] at h
  exact packbitsAux_injOn l₂.length hlen (le_of_eq hlen) h

/-! ### The enumeration-index dictionaries `_TO_INT_1Q` / `_TO_INT_2Q`

`_TO_INT_nQ = {_hash_cliff(cliff): i for i, cliff in _CLIFF_nQ.items()}` is a
Python dict comprehension over `i = 0, …, N-1`; on duplicate keys a later
insertion silently overwrites an earlier one.  `buildToInt f N` is that
dict as a lookup function: it returns the largest `i < N` whose key `f i`
matches, and `none` on a missing key (a `KeyError` in the script). -/

/-- Lookup function of the dict `{f i : i for i in range N}` (later keys win). -/
def buildToInt {K : Type} [DecidableEq K] (f : Nat → K) : Nat → K → Option Nat
  | 0 => fun _ => none
  | n + 1 => fun k => if k = f n then some n else buildToInt f n k

/-- Group sizes `CliffordUtils.NUM_CLIFFORD_1_QUBIT` / `NUM_CLIFFORD_2_QUBIT`.
Modelled from the spec: the constants live in `clifford_utils.py`, which is
not part of the sources here; the spec fixes the group sizes as 24 and 11520. -/
def NUM_CLIFFORD_1Q : Nat := 24

/-- Modelled from the spec: see `NUM_CLIFFORD_1Q`. -/
def NUM_CLIFFORD_2Q : Nat := 11520

section ToInt

variable {E K : Type} [DecidableEq K]

/-- The dict `_TO_INT_nQ` for an enumerator `el` and canonical key `key`,
generic in the group size `N`. -/
def toIntMap (el : Nat → E) (key : E → K) (N : Nat) : K → Option Nat :=
  buildToInt (fun i => key (el i)) N

/-- The dict `_TO_INT_1Q`, parameterized by the external enumerator and the canonical key. -/
def _TO_INT_1Q (el : Nat → E) (key : E → K) : K → Option Nat :=
  toIntMap el key NUM_CLIFFORD_1Q

/-- The dict `_TO_INT_2Q`, parameterized by the external enumerator and the canonical key. -/
def _TO_INT_2Q (el : Nat → E) (key : E → K) : K → Option Nat :=
  toIntMap el key NUM_CLIFFORD_2Q

end ToInt

section BuildToIntLemmas

variable {K : Type} [DecidableEq K] {f : Nat → K}

theorem buildToInt_some : ∀ {N k m}, buildToInt f N k = some m → m < N ∧ f m = k := by
  intro N
  induction N with
  | zero => intro k m h; simp [buildToInt] at h
  | succ n ih =>
      intro k m h
      simp only [buildToInt] at h
      by_cases hk : k = f n
      · simp [hk] at h
        subst h
        exact ⟨Nat.lt_succ_self n, hk.symm⟩
      · simp [hk] at h
        obtain ⟨hm, hf⟩ := ih h
        exact ⟨Nat.lt_succ_of_lt hm, hf⟩

theorem buildToInt_le : ∀ {N k m}, buildToInt f N k = some m →
    ∀ l, l < N → f l = k → l ≤ m := by
  intro N
  induction N with
  | zero => intro k m h; simp [buildToInt] at h
  | succ n ih =>
      intro k m h l hl hfl
      simp only [buildToInt] at h
      by_cases hk : k = f n
      · simp [hk] at h
        omega
      · simp [hk] at h
        rcases Nat.lt_succ_iff_lt_or_eq.mp hl with h' | h'
        · exact ih h l h' hfl
        · subst h'; exact absurd hfl.symm hk

theorem buildToInt_isSome : ∀ {N} (l : Nat) {k}, l < N → f l = k →
    (buildToInt f N k).isSome = true := by
  intro N
  induction N with
  | zero => intro l k h; omega
  | succ n ih =>
      intro l k hl hfl
      simp only [buildToInt]
      by_cases hk : k = f n
      · simp [hk]
      · simp only [hk, if_false]
        rcases Nat.lt_succ_iff_lt_or_eq.mp hl with h' | h'
        · exact ih l h' hfl
        · subst h'; exact absurd hfl.symm hk

theorem buildToInt_self (hinj : ∀ i, i < N → ∀ j, j < N → f i = f j → i = j)
    {i : Nat} (hi : i < N) : buildToInt f N (f i) = some i := by
  have h₁ := buildToInt_isSome (f := f) i hi rfl
  obtain ⟨m, hm⟩ := Option.isSome_iff_exists.mp h₁
  obtain ⟨hmN, hfm⟩ := buildToInt_some hm
  rw [hm, hinj m hmN i hi hfm]

end BuildToIntLemmas

/-! ### The row-validation asserts

The script checks `all(sorted(row) == np.arange(0, N))` after each table
row; `insort` is the sort, and the assert holds iff the row is a
permutation of `range N`. -/

/-- Insert a value into a sorted list (ascending). -/
def insort1 (x : Nat) : List Nat → List Nat
  | [] => [x]
  | y :: ys => if x ≤ y then x :: y :: ys else y :: insort1 x ys

/-- Insertion sort, the model of Python `sorted`. -/
def insort (l : List Nat) : List Nat :=
  l.foldr insort1 []

theorem insort1_perm (x : Nat) (l : List Nat) : List.Perm (insort1 x l) (x :: l) := by
  induction l with
  | nil => simp [insort1]
  | cons y ys ih =>
      simp only [insort1]
      by_cases h : x ≤ y
      · simp [h]
      · simp only [h, if_false]
        exact (ih.cons y).trans (List.Perm.swap x y ys)

theorem insort_perm (l : List Nat) : List.Perm (insort l) l := by
  induction l with
  | nil => simp [insort]
  | cons x xs ih =>
      simp only [insort, List.foldr_cons]
      exact (insort1_perm x (insort xs)).trans (ih.cons x)

theorem insort1_sorted {l : List Nat} (h : l.Sorted (· ≤ ·)) (x : Nat) :
    (insort1 x l).Sorted (· ≤ ·) := by
  induction l with
  | nil => simp [insort1]
  | cons y ys ih =>
      simp only [insort1]
      by_cases hxy : x ≤ y
      · simp only [hxy, if_true]
        refine List.sorted_cons.mpr ⟨?_, h⟩
        intro b hb
        rcases List.mem_cons.mp hb with hb | hb
        · omega
        · have := (List.sorted_cons.mp h).1 b hb
          omega
      · simp only [hxy, if_false]
        have hys := (List.sorted_cons.mp h).2
        refine List.sorted_cons.mpr ⟨?_, ih hys⟩
        intro b hb
        have hb' := (insort1_perm x ys).mem_iff.mp hb
        rcases List.mem_cons.mp hb' with hb' | hb'
        · omega
        · exact (List.sorted_cons.mp h).1 b hb'

theorem insort_sorted (l : List Nat) : (insort l).Sorted (· ≤ ·) := by
  induction l with
  | nil => simp [insort]
  | cons x xs ih => exact insort1_sorted ih x

theorem range_sorted (n : Nat) : (List.range n).Sorted (· ≤ ·) :=
  List.Pairwise.imp le_of_lt (List.pairwise_lt_range n)

theorem insort_eq_range_iff {l : List Nat} {n : Nat} :
    insort l = List.range n ↔ List.Perm l (List.range n) := by
  constructor
  · intro h
    exact h ▸ (insort_perm l).symm
  · intro h
    have hperm : List.Perm (insort l) (List.range n) := (insort_perm l).trans h
    exact List.eq_of_perm_of_sorted hperm (insort_sorted l) (range_sorted n)

/-- A list of `n` distinct values below `n` is a permutation of `range n`. -/
theorem perm_range_of_nodup_of_lt {l : List Nat} {n : Nat} (hnd : l.Nodup)
    (hlt : ∀ x ∈ l, x < n) (hlen : l.length = n) : List.Perm l (List.range n) := by
  have hsub : l ⊆ List.range n := fun x hx => List.mem_range.mpr (hlt x hx)
  have hsp := List.subperm_of_subset hnd hsub
  exact hsp.perm_of_length_le (by simp [hlen])

/-! ### Failure modes of the script (uncaught `KeyError` / failed `assert`) -/

/-- Errors the generation script can raise. -/
inductive GenError where
  | keyError
  | assertionError
deriving DecidableEq

/-- Run an effectful step over a list, stopping at the first error
(Python exceptions propagate out of the loop). -/
def mapE {α β : Type} (f : α → Except GenError β) : List α → Except GenError (List β)
  | [] => .ok []
  | a :: rest =>
      match f a with
      | .error e => .error e
      | .ok b =>
          match mapE f rest with
          | .error e => .error e
          | .ok bs => .ok (b :: bs)

/-- Dict lookup: a missing key raises `KeyError`. -/
def lookupE {K : Type} (tbl : K → Option Nat) (k : K) : Except GenError Nat :=
  match tbl k with
  | some v => .ok v
  | none => .error .keyError

theorem mapE_ok_iff {α β : Type} {f : α → Except GenError β} :
    ∀ {l : List α} {l' : List β},
      mapE f l = .ok l' ↔ List.Forall₂ (fun a b => f a = .ok b) l l' := by
  intro l
  induction l with
  | nil =>
      intro l'
      constructor
      · intro h
        simp only [mapE] at h
        cases h
        exact List.Forall₂.nil
      · intro h
        cases h
        rfl
  | cons a rest ih =>
      intro l'
      constructor
      · intro h
        simp only [mapE] at h
        cases hfa : f a with
        | error e => rw [hfa] at h; cases h
        | ok b =>
            rw [hfa] at h
            cases hrest : mapE f rest with
            | error e => rw [hrest] at h; cases h
            | ok bs =>
                rw [hrest] at h
                cases h
                exact List.Forall₂.cons hfa (ih.mp hrest)
      · intro h
        cases h with
        | cons hfa hrest =>
            simp only [mapE]
            rw [hfa, ih.mpr hrest]

theorem mapE_ok_of_forall {α β : Type} {f : α → Except GenError β} {l : List α}
    (h : ∀ a ∈ l, ∃ b, f a = .ok b) : ∃ l', mapE f l = .ok l' := by
  induction l with
  | nil => exact ⟨[], rfl⟩
  | cons a rest ih =>
      obtain ⟨b, hb⟩ := h a (List.mem_cons_self a rest)
      obtain ⟨bs, hbs⟩ := ih (fun x hx => h x (List.mem_cons_of_mem a hx))
      exact ⟨b :: bs, by simp only [mapE]; rw [hb, hbs]⟩

theorem forall₂_getD {α β : Type} {R : α → β → Prop} :
    ∀ {l₁ : List α} {l₂ : List β}, List.Forall₂ R l₁ l₂ →
      ∀ (i : Nat) (d₁ : α) (d₂ : β), i < l₁.length → R (l₁.getD i d₁) (l₂.getD i d₂) := by
  intro l₁ l₂ h
  induction h with
  | nil => intro i d₁ d₂ hi; simp at hi
  | cons hab hrest ih =>
      intro i d₁ d₂ hi
      cases i with
      | zero => simpa using hab
      | succ i => simpa using ih i d₁ d₂ (by simpa using hi)

/-! ### Dense table generation (`gen_clifford_inverse_*`, `gen_clifford_compose_1q`) -/

section Generation

variable {E K : Type} [DecidableEq K]

/-- Inverse table: `invs[i] = _TO_INT[_hash_cliff(cliff_i.adjoint())]` for `i` in `range N`,
followed by `assert all(sorted(invs) == np.arange(0, N))`; generic in the
group size `N`. -/
def gen_clifford_inverse (el : Nat → E) (adj : E → E) (key : E → K) (N : Nat) :
    Except GenError (List Nat) :=
  match mapE (fun i => lookupE (toIntMap el key N) (key (adj (el i)))) (List.range N) with
  | .error e => .error e
  | .ok invs =>
      if insort invs = List.range N then .ok invs else .error .assertionError

/-- Source `gen_clifford_inverse_1q`: table data for integer 1Q Clifford inversion. -/
def gen_clifford_inverse_1q (el : Nat → E) (adj : E → E) (key : E → K) :
    Except GenError (List Nat) :=
  gen_clifford_inverse el adj key NUM_CLIFFORD_1Q

/-- Source `gen_clifford_inverse_2q`: table data for integer 2Q Clifford inversion. -/
def gen_clifford_inverse_2q (el : Nat → E) (adj : E → E) (key : E → K) :
    Except GenError (List Nat) :=
  gen_clifford_inverse el adj key NUM_CLIFFORD_2Q

/-- One row of the dense composition table:
`products[i, j] = _TO_INT[_hash_cliff(cliff_i.compose(cliff_j))]` followed by
the in-loop `assert all(sorted(products[i]) == np.arange(0, N))`. -/
def composeRow (el : Nat → E) (cp : E → E → E) (key : E → K) (N i : Nat) :
    Except GenError (List Nat) :=
  match mapE (fun j => lookupE (toIntMap el key N) (key (cp (el i) (el j)))) (List.range N) with
  | .error e => .error e
  | .ok row =>
      if insort row = List.range N then .ok row else .error .assertionError

/-- Dense composition table, generic in the group size `N`. -/
def gen_clifford_compose (el : Nat → E) (cp : E → E → E) (key : E → K) (N : Nat) :
    Except GenError (List (List Nat)) :=
  mapE (composeRow el cp key N) (List.range N)

/-- Source `gen_clifford_compose_1q`: table data for integer 1Q Clifford composition. -/
def gen_clifford_compose_1q (el : Nat → E) (cp : E → E → E) (key : E → K) :
    Except GenError (List (List Nat)) :=
  gen_clifford_compose el cp key NUM_CLIFFORD_1Q

end Generation

/-! ### The sparse 2-qubit composition table

`scipy.sparse.lil_matrix` assignment stores an entry only when the assigned
value is nonzero (assigning zero removes any stored entry), and `tocsr()`
preserves the stored entries and the logical shape.  `SparseMat` keeps the
logical shape and the list of explicitly stored entries `((row, col), val)`. -/

structure SparseMat where
  shape : Nat × Nat
  entries : List ((Nat × Nat) × Nat)
deriving DecidableEq

namespace SparseMat

/-- Assignment `m[i, j] = v`: remove any stored entry at `(i, j)`, store `v` if nonzero. -/
def setItem (m : SparseMat) (i j v : Nat) : SparseMat :=
  { m with
    entries :=
      m.entries.filter (fun e => decide (e.1 ≠ (i, j)))
        ++ (if v = 0 then [] else [((i, j), v)]) }

/-- Semantic read: the stored value at `(i, j)`, or zero when nothing is stored. -/
def read (m : SparseMat) (i j : Nat) : Nat :=
  match m.entries.find? (fun e => decide (e.1 = (i, j))) with
  | some e => e.2
  | none => 0

/-- Conversion `tocsr()`: preserves the stored entries and the logical shape,
so on this abstract representation it is the identity. -/
def tocsr (m : SparseMat) : SparseMat := m

end SparseMat

section Sparse

variable {E K : Type} [DecidableEq K]

/-- Inner loop of `gen_clifford_compose_2q_gate` for a fixed row `lhs`:
`products[lhs, rhs] = _TO_INT_2Q[_hash_cliff(cliff_lhs.compose(_CLIFF_2Q[rhs]))]`
for each `rhs` in the generator-map values.  The dict access `_CLIFF_2Q[rhs]`
raises `KeyError` when `rhs` is outside `range N`. -/
def fillRow (el : Nat → E) (cp : E → E → E) (key : E → K) (N lhs : Nat) :
    List Nat → SparseMat → Except GenError SparseMat
  | [], m => .ok m
  | rhs :: rest, m =>
      if rhs < N then
        match toIntMap el key N (key (cp (el lhs) (el rhs))) with
        | some v => fillRow el cp key N lhs rest (m.setItem lhs rhs v)
        | none => .error .keyError
      else .error .keyError

/-- Outer loop of `gen_clifford_compose_2q_gate` over the rows `lhs`. -/
def fillRows (el : Nat → E) (cp : E → E → E) (key : E → K) (N : Nat) (vals : List Nat) :
    List Nat → SparseMat → Except GenError SparseMat
  | [], m => .ok m
  | lhs :: rest, m =>
      match fillRow el cp key N lhs vals m with
      | .error e => .error e
      | .ok m' => fillRows el cp key N vals rest m'

/-- Source `gen_clifford_compose_2q_gate`: the sparse 2Q composition table, populated
only at columns drawn from the values of `_CLIFF_SINGLE_GATE_MAP_2Q`
(passed here as `vals`), then converted to CSR. -/
def gen_clifford_compose_2q_gate (el : Nat → E) (cp : E → E → E) (key : E → K)
    (vals : List Nat) : Except GenError SparseMat :=
  match fillRows el cp key NUM_CLIFFORD_2Q vals (List.range NUM_CLIFFORD_2Q)
      { shape := (NUM_CLIFFORD_2Q, NUM_CLIFFORD_2Q), entries := [] } with
  | .error e => .error e
  | .ok m => .ok m.tocsr

/-- Read through an `Except`-wrapped sparse table; `none` when generation failed. -/
def readResult (r : Except GenError SparseMat) (i j : Nat) : Option Nat :=
  match r with
  | .ok m => some (m.read i j)
  | .error _ => none

/-- Returns `true` when the (successfully generated) sparse table stores no explicit
entry at `(i, j)`. -/
def entryFreeB (r : Except GenError SparseMat) (i j : Nat) : Bool :=
  match r with
  | .ok m => m.entries.all (fun e => decide (e.1 ≠ (i, j)))
  | .error _ => true

end Sparse

/-! ### Generator maps (`gen_cliff_single_1q_gate_map`, `gen_cliff_single_2q_gate_map`)

A generator label is a gate name together with the qubit argument tuple; the
external collaborator (`QuantumCircuit` + `Clifford`) turns a label into a
group element.  The published constants `_CLIFF_SINGLE_GATE_MAP_1Q/2Q` live in
`clifford_utils.py`, which is not among the sources here; modelled from the
spec, they are injected as read-only inputs (`pub1`, `pub2` below) of the
same association-list shape, compared with Python dict equality. -/

abbrev GateLabel := String × List Nat

abbrev GateMap := List (GateLabel × Nat)

/-- The list `_GATE_LIST_1Q`, by qiskit gate names. -/
def _GATE_LIST_1Q : List String :=
  ["id", "h", "sxdg", "s", "x", "sx", "y", "z", "sdg"]

/-- Label order of the 2Q generator-map construction:
`itertools.product(_GATE_LIST_1Q, [0, 1])` followed by
`itertools.product([CXGate(), CZGate()], [(0, 1), (1, 0)])`. -/
def labels_2q : List GateLabel :=
  [("id", [0]), ("id", [1]), ("h", [0]), ("h", [1]), ("sxdg", [0]), ("sxdg", [1]),
   ("s", [0]), ("s", [1]), ("x", [0]), ("x", [1]), ("sx", [0]), ("sx", [1]),
   ("y", [0]), ("y", [1]), ("z", [0]), ("z", [1]), ("sdg", [0]), ("sdg", [1]),
   ("cx", [0, 1]), ("cx", [1, 0]), ("cz", [0, 1]), ("cz", [1, 0])]

section GateMaps

variable {E K : Type} [DecidableEq K]

/-- Source `gen_cliff_single_1q_gate_map`: for each 1Q gate, build its Clifford via
the collaborator `gc`, resolve it through `_TO_INT_1Q`, and record
`{(gate.name, (0,)): num}` in order. -/
def gen_cliff_single_1q_gate_map (el : Nat → E) (key : E → K) (gc : String → E) :
    Except GenError GateMap :=
  mapE (fun g =>
    match toIntMap el key NUM_CLIFFORD_1Q (key (gc g)) with
    | some num => .ok ((g, [0]), num)
    | none => .error .keyError) _GATE_LIST_1Q

/-- Source `gen_cliff_single_2q_gate_map`: same construction over `labels_2q`, with
the collaborator `gc` building the 2-qubit circuit Clifford for a label. -/
def gen_cliff_single_2q_gate_map (el : Nat → E) (key : E → K) (gc : GateLabel → E) :
    Except GenError GateMap :=
  mapE (fun lk =>
    match toIntMap el key NUM_CLIFFORD_2Q (key (gc lk)) with
    | some num => .ok (lk, num)
    | none => .error .keyError) labels_2q

end GateMaps

/-- First-match lookup in a gate map (Python dicts have unique keys). -/
def lookupGM (d : GateMap) (k : GateLabel) : Option Nat :=
  match d.find? (fun e => decide (e.1 = k)) with
  | some e => some e.2
  | none => none

/-- Python dict equality on gate maps: same keys with the same values. -/
def gmEqb (d1 d2 : GateMap) : Bool :=
  d1.all (fun e => decide (lookupGM d2 e.1 = some e.2))
    && d2.all (fun e => decide (lookupGM d1 e.1 = some e.2))

/-- Outcome of the `pub != gen_cliff_single_*_gate_map()` comparison: `false` when the
generation raised or the dicts differ. -/
def mapMatches (pub : GateMap) (r : Except GenError GateMap) : Bool :=
  match r with
  | .ok m => gmEqb pub m
  | .error _ => false

/-! ### The `__main__` driver -/

/-- Observable milestones of a run of the script, in program order:
the two validation checks, the four `np.savez_compressed`/`save_npz` writes,
and the invocation of `gen_clifford_compose_2q_gate`. -/
inductive Event where
  | check1qPassed
  | wroteInverse1q
  | wroteCompose1q
  | check2qPassed
  | wroteInverse2q
  | invokedGenCompose2q
  | wroteCompose2qSparse
deriving DecidableEq

/-- Fatal outcomes of a run. -/
inductive MainError where
  | mismatch1q
  | mismatch2q
  | genFailed (e : GenError)
deriving DecidableEq

/-- The event sequence of a complete, successful run. -/
def fullEvents : List Event :=
  [.check1qPassed, .wroteInverse1q, .wroteCompose1q, .check2qPassed,
   .wroteInverse2q, .invokedGenCompose2q, .wroteCompose2qSparse]

/-- All inputs of the script: the two published generator-map constants and
the two groups' external collaborators. -/
structure MainArgs (E1 K1 E2 K2 : Type) where
  pub1 : GateMap
  pub2 : GateMap
  el1 : Nat → E1
  adj1 : E1 → E1
  cp1 : E1 → E1 → E1
  key1 : E1 → K1
  gc1 : String → E1
  el2 : Nat → E2
  adj2 : E2 → E2
  cp2 : E2 → E2 → E2
  key2 : E2 → K2
  gc2 : GateLabel → E2

section Main

variable {E1 K1 E2 K2 : Type} [DecidableEq K1] [DecidableEq K2]

/-- The `if __name__ == "__main__"` driver: validate the 1Q generator map,
write the 1Q inverse and composition tables, validate the 2Q generator map,
write the 2Q inverse table, then generate and write the sparse 2Q
composition table.  Returns the events that happened, in order, together
with the fatal error, if any. -/
def mainRun (A : MainArgs E1 K1 E2 K2) : List Event × Option MainError :=
  match gen_cliff_single_1q_gate_map A.el1 A.key1 A.gc1 with
  | .error e => ([], some (.genFailed e))
  | .ok m1 =>
      if gmEqb A.pub1 m1 then
        match gen_clifford_inverse_1q A.el1 A.adj1 A.key1 with
        | .error e => ([.check1qPassed], some (.genFailed e))
        | .ok _ =>
            match gen_clifford_compose_1q A.el1 A.cp1 A.key1 with
            | .error e => ([.check1qPassed, .wroteInverse1q], some (.genFailed e))
            | .ok _ =>
                match gen_cliff_single_2q_gate_map A.el2 A.key2 A.gc2 with
                | .error e =>
                    ([.check1qPassed, .wroteInverse1q, .wroteCompose1q],
                     some (.genFailed e))
                | .ok m2 =>
                    if gmEqb A.pub2 m2 then
                      match gen_clifford_inverse_2q A.el2 A.adj2 A.key2 with
                      | .error e =>
                          ([.check1qPassed, .wroteInverse1q, .wroteCompose1q,
                            .check2qPassed], some (.genFailed e))
                      | .ok _ =>
                          match gen_clifford_compose_2q_gate A.el2 A.cp2 A.key2
                              (A.pub2.map (fun e => e.2)) with
                          | .error e =>
                              ([.check1qPassed, .wroteInverse1q, .wroteCompose1q,
                                .check2qPassed, .wroteInverse2q,
                                .invokedGenCompose2q], some (.genFailed e))
                          | .ok _ => (fullEvents, none)
                    else
                      ([.check1qPassed, .wroteInverse1q, .wroteCompose1q],
                       some .mismatch2q)
      else ([], some .mismatch1q)

end Main

/-! ### Guarantees of the external group-algebra collaborator

The spec assumes the enumerator covers the closed group exactly once; these
predicates state the consequences used below, for an abstract collaborator. -/

section Hypotheses

variable {E K : Type}

/-- The enumeration is exact: distinct indices have distinct canonical keys. -/
def Exact (el : Nat → E) (key : E → K) (N : Nat) : Prop :=
  ∀ i, i < N → ∀ j, j < N → key (el i) = key (el j) → i = j

/-- Closure: the composite of two enumerated elements is again enumerated. -/
def ClosedComp (el : Nat → E) (cp : E → E → E) (key : E → K) (N : Nat) : Prop :=
  ∀ i, i < N → ∀ j, j < N → ∃ k, k < N ∧ key (cp (el i) (el j)) = key (el k)

/-- Left cancellation: composing with a fixed left operand is injective. -/
def CancelLeft (el : Nat → E) (cp : E → E → E) (key : E → K) (N : Nat) : Prop :=
  ∀ i, i < N → ∀ j₁, j₁ < N → ∀ j₂, j₂ < N →
    key (cp (el i) (el j₁)) = key (cp (el i) (el j₂)) → j₁ = j₂

/-- The adjoint of an enumerated element is again enumerated. -/
def ClosedAdj (el : Nat → E) (adj : E → E) (key : E → K) (N : Nat) : Prop :=
  ∀ i, i < N → ∃ j, j < N ∧ key (adj (el i)) = key (el j)

/-- Adjoints of distinct elements are distinct. -/
def AdjInj (el : Nat → E) (adj : E → E) (key : E → K) (N : Nat) : Prop :=
  ∀ i, i < N → ∀ j, j < N → key (adj (el i)) = key (adj (el j)) → i = j

/-- Index `e` holds the group identity. -/
def IdentityAt (el : Nat → E) (cp : E → E → E) (key : E → K) (N e : Nat) : Prop :=
  e < N ∧ ∀ j, j < N →
    key (cp (el e) (el j)) = key (el j) ∧ key (cp (el j) (el e)) = key (el j)

/-- Composing an element with its adjoint yields the identity (at index `e`). -/
def InvLaw (el : Nat → E) (cp : E → E → E) (adj : E → E) (key : E → K) (N e : Nat) : Prop :=
  ∀ i, i < N → key (cp (el i) (adj (el i))) = key (el e)

/-- Composition respects canonical keys in its right argument. -/
def CompRespects (cp : E → E → E) (key : E → K) : Prop :=
  ∀ a b c, key b = key c → key (cp a b) = key (cp a c)

end Hypotheses

/-! ### Correctness of the dense table builders -/

theorem lookupE_ok_iff {K : Type} {tbl : K → Option Nat} {k : K} {v : Nat} :
    lookupE tbl k = .ok v ↔ tbl k = some v := by
  unfold lookupE
  cases h : tbl k with
  | some w => simp
  | none => simp

theorem range_getD {i N : Nat} (h : i < N) : (List.range N).getD i 0 = i := by
  rw [List.getD_eq_getElem (List.range N) 0 (by simpa using h)]
  simp

theorem getD_eq_get {α : Type} {l : List α} {i : Nat} {d : α} (h : i < l.length) :
    l.getD i d = l.get ⟨i, h⟩ := by
  rw [List.getD_eq_getElem l d h]
  rfl

section DenseSpec

variable {E K : Type} [DecidableEq K]

theorem gen_clifford_inverse_spec (el : Nat → E) (adj : E → E) (key : E → K) (N : Nat)
    (hex : Exact el key N) (hca : ClosedAdj el adj key N) (hai : AdjInj el adj key N) :
    ∃ invs, gen_clifford_inverse el adj key N = .ok invs ∧
      List.Perm invs (List.range N) ∧ invs.length = N ∧
      ∀ i, i < N → invs.getD i 0 < N ∧
        key (el (invs.getD i 0)) = key (adj (el i)) ∧
        toIntMap el key N (key (adj (el i))) = some (invs.getD i 0) := by
  have hlook : ∀ i ∈ List.range N, ∃ v,
      lookupE (toIntMap el key N) (key (adj (el i))) = .ok v := by
    intro i hi
    obtain ⟨j, hjN, hkey⟩ := hca i (List.mem_range.mp hi)
    refine ⟨j, lookupE_ok_iff.mpr ?_⟩
    rw [hkey]
    exact buildToInt_self (f := fun i => key (el i)) hex hjN
  obtain ⟨invs, hinvs⟩ := mapE_ok_of_forall hlook
  have hfa := mapE_ok_iff.mp hinvs
  have hlen : invs.length = N := by
    have := hfa.length_eq
    simpa using this.symm
  have hpt : ∀ i, i < N → toIntMap el key N (key (adj (el i))) = some (invs.getD i 0) := by
    intro i hi
    have := forall₂_getD hfa i 0 0 (by simpa using hi)
    rw [range_getD hi] at this
    exact lookupE_ok_iff.mp this
  have hprops : ∀ i, i < N → invs.getD i 0 < N ∧
      key (el (invs.getD i 0)) = key (adj (el i)) := by
    intro i hi
    obtain ⟨hlt, hkey⟩ := buildToInt_some (hpt i hi)
    exact ⟨hlt, hkey⟩
  have hnd : invs.Nodup := by
    rw [List.nodup_iff_injective_get]
    intro a b heq
    have ha : (a : Nat) < N := by rw [← hlen]; exact a.isLt
    have hb : (b : Nat) < N := by rw [← hlen]; exact b.isLt
    have hga : invs.getD a 0 = invs.get a := getD_eq_get a.isLt
    have hgb : invs.getD b 0 = invs.get b := getD_eq_get b.isLt
    have hkeys : key (adj (el a)) = key (adj (el b)) := by
      rw [← (hprops a ha).2, ← (hprops b hb).2, hga, hgb, heq]
    exact Fin.ext (hai a ha b hb hkeys)
  have hbound : ∀ x ∈ invs, x < N := by
    intro x hx
    obtain ⟨a, hxa⟩ := List.mem_iff_get.mp hx
    have ha : (a : Nat) < N := by rw [← hlen]; exact a.isLt
    have := (hprops a ha).1
    rw [getD_eq_get a.isLt] at this
    rw [← hxa]
    exact this
  have hperm : List.Perm invs (List.range N) :=
    perm_range_of_nodup_of_lt hnd hbound hlen
  refine ⟨invs, ?_, hperm, hlen, fun i hi => ⟨(hprops i hi).1, (hprops i hi).2, hpt i hi⟩⟩
  unfold gen_clifford_inverse
  rw [hinvs]
  simp [insort_eq_range_iff.mpr hperm]

theorem composeRow_spec (el : Nat → E) (cp : E → E → E) (key : E → K) (N : Nat)
    (hex : Exact el key N) (hcl : ClosedComp el cp key N) (hcn : CancelLeft el cp key N)
    {i : Nat} (hi : i < N) :
    ∃ row, composeRow el cp key N i = .ok row ∧
      row.length = N ∧ List.Perm row (List.range N) ∧
      ∀ j, j < N → toIntMap el key N (key (cp (el i) (el j))) = some (row.getD j 0) := by
  have hlook : ∀ j ∈ List.range N, ∃ v,
      lookupE (toIntMap el key N) (key (cp (el i) (el j))) = .ok v := by
    intro j hj
    obtain ⟨k, hkN, hkey⟩ := hcl i hi j (List.mem_range.mp hj)
    refine ⟨k, lookupE_ok_iff.mpr ?_⟩
    rw [hkey]
    exact buildToInt_self (f := fun i => key (el i)) hex hkN
  obtain ⟨row, hrow⟩ := mapE_ok_of_forall hlook
  have hfa := mapE_ok_iff.mp hrow
  have hlen : row.length = N := by
    have := hfa.length_eq
    simpa using this.symm
  have hpt : ∀ j, j < N → toIntMap el key N (key (cp (el i) (el j))) = some (row.getD j 0) := by
    intro j hj
    have := forall₂_getD hfa j 0 0 (by simpa using hj)
    rw [range_getD hj] at this
    exact lookupE_ok_iff.mp this
  have hnd : row.Nodup := by
    rw [List.nodup_iff_injective_get]
    intro a b heq
    have ha : (a : Nat) < N := by rw [← hlen]; exact a.isLt
    have hb : (b : Nat) < N := by rw [← hlen]; exact b.isLt
    have h₁ := hpt a ha
    have h₂ := hpt b hb
    rw [getD_eq_get a.isLt] at h₁
    rw [getD_eq_get b.isLt] at h₂
    rw [heq] at h₁
    have hkeys : key (cp (el i) (el a)) = key (cp (el i) (el b)) := by
      have e₁ := (buildToInt_some h₁).2
      have e₂ := (buildToInt_some h₂).2
      rw [← e₁, ← e₂]
    exact Fin.ext (hcn i hi a ha b hb hkeys)
  have hbound : ∀ x ∈ row, x < N := by
    intro x hx
    obtain ⟨a, hxa⟩ := List.mem_iff_get.mp hx
    have ha : (a : Nat) < N := by rw [← hlen]; exact a.isLt
    have := (buildToInt_some (hpt a ha)).1
    rw [getD_eq_get a.isLt] at this
    rw [← hxa]
    exact this
  have hperm : List.Perm row (List.range N) :=
    perm_range_of_nodup_of_lt hnd hbound hlen
  refine ⟨row, ?_, hlen, hperm, hpt⟩
  unfold composeRow
  rw [hrow]
  simp [insort_eq_range_iff.mpr hperm]

theorem gen_clifford_compose_spec (el : Nat → E) (cp : E → E → E) (key : E → K) (N : Nat)
    (hex : Exact el key N) (hcl : ClosedComp el cp key N) (hcn : CancelLeft el cp key N) :
    ∃ T, gen_clifford_compose el cp key N = .ok T ∧ T.length = N ∧
      (∀ row ∈ T, List.Perm row (List.range N)) ∧
      ∀ i, i < N → ∀ j, j < N →
        toIntMap el key N (key (cp (el i) (el j))) = some ((T.getD i []).getD j 0) := by
  have hrows : ∀ i ∈ List.range N, ∃ row, composeRow el cp key N i = .ok row := by
    intro i hi
    obtain ⟨row, hrow, -, -, -⟩ := composeRow_spec el cp key N hex hcl hcn (List.mem_range.mp hi)
    exact ⟨row, hrow⟩
  obtain ⟨T, hT⟩ := mapE_ok_of_forall hrows
  have hfa := mapE_ok_iff.mp hT
  have hlen : T.length = N := by
    have := hfa.length_eq
    simpa using this.symm
  have hrow_at : ∀ i, i < N → composeRow el cp key N i = .ok (T.getD i []) := by
    intro i hi
    have := forall₂_getD hfa i 0 [] (by simpa using hi)
    rwa [range_getD hi] at this
  have hrow_props : ∀ i, i < N → List.Perm (T.getD i []) (List.range N) ∧
      ∀ j, j < N → toIntMap el key N (key (cp (el i) (el j))) = some ((T.getD i []).getD j 0) := by
    intro i hi
    obtain ⟨row, hrow, -, hperm, hpt⟩ := composeRow_spec el cp key N hex hcl hcn hi
    have : row = T.getD i [] := by
      have h₂ := hrow_at i hi
      rw [hrow] at h₂
      exact (Except.ok.injEq _ _).mp h₂
    rw [← this]
    exact ⟨hperm, hpt⟩
  refine ⟨T, hT, hlen, ?_, fun i hi j hj => (hrow_props i hi).2 j hj⟩
  intro row hrow
  obtain ⟨a, hra⟩ := List.mem_iff_get.mp hrow
  have ha : (a : Nat) < N := by rw [← hlen]; exact a.isLt
  have := (hrow_props a ha).1
  rw [getD_eq_get a.isLt] at this
  rw [← hra]
  exact this

end DenseSpec

/-! ### Correctness of the sparse table builder -/

theorem find_append_eq {α : Type} (p : α → Bool) (l₁ l₂ : List α) :
    List.find? p (l₁ ++ l₂) =
      match List.find? p l₁ with
      | some x => some x
      | none => List.find? p l₂ := by
  induction l₁ with
  | nil => simp
  | cons a t ih =>
      by_cases h : p a = true
      · simp [List.find?, h]
      · rw [Bool.not_eq_true] at h
        simp [List.find?, h, ih]

theorem find_filter_eq {α : Type} (p q : α → Bool) (l : List α)
    (h : ∀ x, p x = true → q x = true) :
    List.find? p (l.filter q) = List.find? p l := by
  induction l with
  | nil => simp
  | cons a t ih =>
      by_cases hq : q a
      · by_cases hp : p a
        · simp [List.filter, hq, List.find?, hp]
        · simp only [List.filter, hq, List.find?]
          rw [Bool.not_eq_true] at hp
          simp [hp, ih]
      · have hp : p a = false := by
          by_contra hc
          rw [Bool.not_eq_false] at hc
          exact hq (h a hc)
        simp only [List.filter, List.find?]
        rw [Bool.not_eq_true] at hq
        simp [hq, hp, ih]

namespace SparseMat

theorem setItem_shape (m : SparseMat) (i j v : Nat) :
    (m.setItem i j v).shape = m.shape := rfl

theorem read_setItem_self (m : SparseMat) (i j v : Nat) :
    (m.setItem i j v).read i j = v := by
  unfold read setItem
  simp only
  rw [find_append_eq]
  have hnone : List.find? (fun e => decide (e.1 = (i, j)))
      (m.entries.filter (fun e => decide (e.1 ≠ (i, j)))) = none := by
    rw [List.find?_eq_none]
    intro x hx
    have := List.of_mem_filter hx
    simp at this ⊢
    exact this
  rw [hnone]
  by_cases hv : v = 0
  · simp [hv]
  · simp [hv]

theorem read_setItem_other (m : SparseMat) {i j i' j' : Nat} (v : Nat)
    (hne : (i', j') ≠ (i, j)) : (m.setItem i j v).read i' j' = m.read i' j' := by
  unfold read setItem
  simp only
  rw [find_append_eq]
  rw [find_filter_eq (fun e => decide (e.1 = (i', j'))) (fun e => decide (e.1 ≠ (i, j)))
    m.entries (by intro x hx; simp at hx ⊢; rw [hx]; exact hne)]
  have htail : List.find? (fun e => decide (e.1 = (i', j')))
      (if v = 0 then ([] : List ((Nat × Nat) × Nat)) else [((i, j), v)]) = none := by
    by_cases hv : v = 0
    · simp [hv]
    · rw [if_neg hv, List.find?_eq_none]
      intro x hx
      rcases List.mem_singleton.mp hx with rfl
      simp only [decide_eq_true_eq]
      exact fun hc => hne hc.symm
  rw [htail]
  cases hf : List.find? (fun e => decide (e.1 = (i', j'))) m.entries with
  | some e => rfl
  | none => rfl

theorem mem_setItem {m : SparseMat} {i j v : Nat} {e : (Nat × Nat) × Nat}
    (he : e ∈ (m.setItem i j v).entries) :
    e ∈ m.entries ∨ (e = ((i, j), v) ∧ v ≠ 0) := by
  unfold setItem at he
  simp only at he
  rcases List.mem_append.mp he with h | h
  · exact Or.inl (List.mem_of_mem_filter h)
  · by_cases hv : v = 0
    · rw [hv] at h; simp at h
    · rw [if_neg hv] at h
      rcases List.mem_singleton.mp h with rfl
      exact Or.inr ⟨rfl, hv⟩

end SparseMat

section SparseLemmas

variable {E K : Type} [DecidableEq K]
variable (el : Nat → E) (cp : E → E → E) (key : E → K) (N : Nat)

theorem fillRow_ok (lhs : Nat) :
    ∀ (vals : List Nat) (m : SparseMat),
      (∀ g ∈ vals, g < N ∧
        (toIntMap el key N (key (cp (el lhs) (el g)))).isSome = true) →
      ∃ m', fillRow el cp key N lhs vals m = .ok m' := by
  intro vals
  induction vals with
  | nil => intro m _; exact ⟨m, rfl⟩
  | cons rhs rest ih =>
      intro m h
      obtain ⟨hlt, hsome⟩ := h rhs (List.mem_cons_self rhs rest)
      obtain ⟨v, hv⟩ := Option.isSome_iff_exists.mp hsome
      obtain ⟨m', hm'⟩ := ih (m.setItem lhs rhs v) (fun g hg => h g (List.mem_cons_of_mem rhs hg))
      refine ⟨m', ?_⟩
      unfold fillRow
      rw [if_pos hlt, hv]
      exact hm'

theorem fillRow_shape (lhs : Nat) :
    ∀ (vals : List Nat) (m m' : SparseMat),
      fillRow el cp key N lhs vals m = .ok m' → m'.shape = m.shape := by
  intro vals
  induction vals with
  | nil => intro m m' h; cases h; rfl
  | cons rhs rest ih =>
      intro m m' h
      unfold fillRow at h
      by_cases hlt : rhs < N
      · rw [if_pos hlt] at h
        cases hv : toIntMap el key N (key (cp (el lhs) (el rhs))) with
        | none => rw [hv] at h; cases h
        | some v =>
            rw [hv] at h
            exact ih (m.setItem lhs rhs v) m' h
      · rw [if_neg hlt] at h; cases h

theorem fillRow_entries (lhs : Nat) :
    ∀ (vals : List Nat) (m m' : SparseMat),
      fillRow el cp key N lhs vals m = .ok m' →
      ∀ e ∈ m'.entries, e ∈ m.entries ∨
        (e.1.1 = lhs ∧ e.1.2 ∈ vals ∧
          toIntMap el key N (key (cp (el lhs) (el e.1.2))) = some e.2 ∧ e.2 ≠ 0) := by
  intro vals
  induction vals with
  | nil => intro m m' h e he; cases h; exact Or.inl he
  | cons rhs rest ih =>
      intro m m' h e he
      unfold fillRow at h
      by_cases hlt : rhs < N
      · rw [if_pos hlt] at h
        cases hv : toIntMap el key N (key (cp (el lhs) (el rhs))) with
        | none => rw [hv] at h; cases h
        | some v =>
            rw [hv] at h
            rcases ih (m.setItem lhs rhs v) m' h e he with h' | h'
            · rcases SparseMat.mem_setItem h' with h'' | h''
              · exact Or.inl h''
              · obtain ⟨rfl, hvne⟩ := h''
                exact Or.inr ⟨rfl, List.mem_cons_self rhs rest, hv, hvne⟩
            · exact Or.inr ⟨h'.1, List.mem_cons_of_mem rhs h'.2.1, h'.2.2⟩
      · rw [if_neg hlt] at h; cases h

theorem fillRow_read_other (lhs : Nat) :
    ∀ (vals : List Nat) (m m' : SparseMat),
      fillRow el cp key N lhs vals m = .ok m' →
      ∀ i' j', i' ≠ lhs → m'.read i' j' = m.read i' j' := by
  intro vals
  induction vals with
  | nil => intro m m' h i' j' _; cases h; rfl
  | cons rhs rest ih =>
      intro m m' h i' j' hne
      unfold fillRow at h
      by_cases hlt : rhs < N
      · rw [if_pos hlt] at h
        cases hv : toIntMap el key N (key (cp (el lhs) (el rhs))) with
        | none => rw [hv] at h; cases h
        | some v =>
            rw [hv] at h
            rw [ih (m.setItem lhs rhs v) m' h i' j' hne]
            exact SparseMat.read_setItem_other m v (by simp [hne])
      · rw [if_neg hlt] at h; cases h

theorem fillRow_read_notin (lhs : Nat) :
    ∀ (vals : List Nat) (m m' : SparseMat),
      fillRow el cp key N lhs vals m = .ok m' →
      ∀ g, g ∉ vals → m'.read lhs g = m.read lhs g := by
  intro vals
  induction vals with
  | nil => intro m m' h g _; cases h; rfl
  | cons rhs rest ih =>
      intro m m' h g hg
      unfold fillRow at h
      by_cases hlt : rhs < N
      · rw [if_pos hlt] at h
        cases hv : toIntMap el key N (key (cp (el lhs) (el rhs))) with
        | none => rw [hv] at h; cases h
        | some v =>
            rw [hv] at h
            have hgrest : g ∉ rest := fun hc => hg (List.mem_cons_of_mem rhs hc)
            have hgrhs : g ≠ rhs := fun hc => hg (hc ▸ List.mem_cons_self rhs rest)
            rw [ih (m.setItem lhs rhs v) m' h g hgrest]
            exact SparseMat.read_setItem_other m v (by simp [hgrhs])
      · rw [if_neg hlt] at h; cases h

theorem fillRow_read_mem (lhs : Nat) :
    ∀ (vals : List Nat) (m m' : SparseMat),
      fillRow el cp key N lhs vals m = .ok m' →
      ∀ g v, g ∈ vals →
        toIntMap el key N (key (cp (el lhs) (el g))) = some v →
        m'.read lhs g = v := by
  intro vals
  induction vals with
  | nil => intro m m' _ g v hg; cases hg
  | cons rhs rest ih =>
      intro m m' h g v hg hv
      unfold fillRow at h
      by_cases hlt : rhs < N
      · rw [if_pos hlt] at h
        cases hv' : toIntMap el key N (key (cp (el lhs) (el rhs))) with
        | none => rw [hv'] at h; cases h
        | some v' =>
            rw [hv'] at h
            by_cases hgrest : g ∈ rest
            · exact ih (m.setItem lhs rhs v') m' h g v hgrest hv
            · have hgrhs : g = rhs := by
                rcases List.mem_cons.mp hg with h' | h'
                · exact h'
                · exact absurd h' hgrest
              subst hgrhs
              have hvv : v' = v := by
                rw [hv] at hv'
                exact (Option.some.injEq _ _).mp hv'.symm
              rw [fillRow_read_notin el cp key N lhs rest (m.setItem lhs g v') m' h g hgrest,
                SparseMat.read_setItem_self, hvv]
      · rw [if_neg hlt] at h; cases h

theorem fillRow_nonzero (lhs : Nat) :
    ∀ (vals : List Nat) (m m' : SparseMat),
      fillRow el cp key N lhs vals m = .ok m' →
      (∀ e ∈ m.entries, e.2 ≠ 0) → ∀ e ∈ m'.entries, e.2 ≠ 0 := by
  intro vals m m' h h0 e he
  rcases fillRow_entries el cp key N lhs vals m m' h e he with h' | h'
  · exact h0 e h'
  · exact h'.2.2.2

end SparseLemmas

section SparseRowsLemmas

variable {E K : Type} [DecidableEq K]
variable (el : Nat → E) (cp : E → E → E) (key : E → K) (N : Nat) (vals : List Nat)

theorem fillRows_ok :
    ∀ (rows : List Nat) (m : SparseMat),
      (∀ i ∈ rows, ∀ g ∈ vals, g < N ∧
        (toIntMap el key N (key (cp (el i) (el g)))).isSome = true) →
      ∃ m', fillRows el cp key N vals rows m = .ok m' := by
  intro rows
  induction rows with
  | nil => intro m _; exact ⟨m, rfl⟩
  | cons r rest ih =>
      intro m h
      obtain ⟨m₁, hm₁⟩ := fillRow_ok el cp key N r vals m (h r (List.mem_cons_self r rest))
      obtain ⟨m', hm'⟩ := ih m₁ (fun i hi => h i (List.mem_cons_of_mem r hi))
      refine ⟨m', ?_⟩
      unfold fillRows
      rw [hm₁]
      exact hm'

theorem fillRows_shape :
    ∀ (rows : List Nat) (m m' : SparseMat),
      fillRows el cp key N vals rows m = .ok m' → m'.shape = m.shape := by
  intro rows
  induction rows with
  | nil => intro m m' h; cases h; rfl
  | cons r rest ih =>
      intro m m' h
      unfold fillRows at h
      cases hr : fillRow el cp key N r vals m with
      | error e => rw [hr] at h; cases h
      | ok m₁ =>
          rw [hr] at h
          rw [ih m₁ m' h, fillRow_shape el cp key N r vals m m₁ hr]

theorem fillRows_entries :
    ∀ (rows : List Nat) (m m' : SparseMat),
      fillRows el cp key N vals rows m = .ok m' →
      ∀ e ∈ m'.entries, e ∈ m.entries ∨
        (e.1.1 ∈ rows ∧ e.1.2 ∈ vals ∧
          toIntMap el key N (key (cp (el e.1.1) (el e.1.2))) = some e.2 ∧ e.2 ≠ 0) := by
  intro rows
  induction rows with
  | nil => intro m m' h e he; cases h; exact Or.inl he
  | cons r rest ih =>
      intro m m' h e he
      unfold fillRows at h
      cases hr : fillRow el cp key N r vals m with
      | error e' => rw [hr] at h; cases h
      | ok m₁ =>
          rw [hr] at h
          rcases ih m₁ m' h e he with h' | h'
          · rcases fillRow_entries el cp key N r vals m m₁ hr e h' with h'' | h''
            · exact Or.inl h''
            · exact Or.inr ⟨h''.1 ▸ List.mem_cons_self r rest, h''.2.1,
                by rw [h''.1]; exact h''.2.2.1, h''.2.2.2⟩
          · exact Or.inr ⟨List.mem_cons_of_mem r h'.1, h'.2⟩

theorem fillRows_read_notin :
    ∀ (rows : List Nat) (m m' : SparseMat),
      fillRows el cp key N vals rows m = .ok m' →
      ∀ lhs g, lhs ∉ rows → m'.read lhs g = m.read lhs g := by
  intro rows
  induction rows with
  | nil => intro m m' h lhs g _; cases h; rfl
  | cons r rest ih =>
      intro m m' h lhs g hnotin
      unfold fillRows at h
      cases hr : fillRow el cp key N r vals m with
      | error e => rw [hr] at h; cases h
      | ok m₁ =>
          rw [hr] at h
          have hrest : lhs ∉ rest := fun hc => hnotin (List.mem_cons_of_mem r hc)
          have hne : lhs ≠ r := fun hc => hnotin (hc ▸ List.mem_cons_self r rest)
          rw [ih m₁ m' h lhs g hrest]
          exact fillRow_read_other el cp key N r vals m m₁ hr lhs g hne

theorem fillRows_read :
    ∀ (rows : List Nat) (m m' : SparseMat),
      fillRows el cp key N vals rows m = .ok m' →
      ∀ lhs g v, lhs ∈ rows → g ∈ vals →
        toIntMap el key N (key (cp (el lhs) (el g))) = some v →
        m'.read lhs g = v := by
  intro rows
  induction rows with
  | nil => intro m m' _ lhs g v hmem; cases hmem
  | cons r rest ih =>
      intro m m' h lhs g v hmem hg hv
      unfold fillRows at h
      cases hr : fillRow el cp key N r vals m with
      | error e => rw [hr] at h; cases h
      | ok m₁ =>
          rw [hr] at h
          by_cases hrest : lhs ∈ rest
          · exact ih m₁ m' h lhs g v hrest hg hv
          · have hlr : lhs = r := by
              rcases List.mem_cons.mp hmem with h' | h'
              · exact h'
              · exact absurd h' hrest
            subst hlr
            rw [fillRows_read_notin el cp key N vals rest m₁ m' h lhs g hrest]
            exact fillRow_read_mem el cp key N lhs vals m m₁ hr g v hg hv

theorem fillRows_nonzero :
    ∀ (rows : List Nat) (m m' : SparseMat),
      fillRows el cp key N vals rows m = .ok m' →
      (∀ e ∈ m.entries, e.2 ≠ 0) → ∀ e ∈ m'.entries, e.2 ≠ 0 := by
  intro rows m m' h h0 e he
  rcases fillRows_entries el cp key N vals rows m m' h e he with h' | h'
  · exact h0 e h'
  · exact h'.2.2.2

end SparseRowsLemmas

section SparseGenSpec

variable {E K : Type} [DecidableEq K]

/-- The initial empty `lil_matrix((N, N))`. -/
def emptySparse : SparseMat :=
  { shape := (NUM_CLIFFORD_2Q, NUM_CLIFFORD_2Q), entries := [] }

theorem gen_compose_2q_ok (el : Nat → E) (cp : E → E → E) (key : E → K) (vals : List Nat)
    (h : ∀ g ∈ vals, g < NUM_CLIFFORD_2Q ∧
      ∀ i, i < NUM_CLIFFORD_2Q →
        (toIntMap el key NUM_CLIFFORD_2Q (key (cp (el i) (el g)))).isSome = true) :
    ∃ m, gen_clifford_compose_2q_gate el cp key vals = .ok m := by
  obtain ⟨m, hm⟩ := fillRows_ok el cp key NUM_CLIFFORD_2Q vals
    (List.range NUM_CLIFFORD_2Q) emptySparse
    (fun i hi g hg => ⟨(h g hg).1, (h g hg).2 i (List.mem_range.mp hi)⟩)
  refine ⟨m.tocsr, ?_⟩
  unfold gen_clifford_compose_2q_gate
  rw [show ({ shape := (NUM_CLIFFORD_2Q, NUM_CLIFFORD_2Q), entries := [] } : SparseMat)
    = emptySparse from rfl, hm]

end SparseGenSpec

/-! ### A concrete collaborator satisfying the guarantees: the cyclic group Z/N

Used to witness the collaborator hypotheses at both group sizes: elements
are `Nat`, the enumerator reduces mod `N`, composition is addition mod `N`,
the adjoint is negation mod `N`, and the canonical key is the identity. -/

def modEl (N : Nat) : Nat → Nat := fun i => i % N

def modCp (N : Nat) : Nat → Nat → Nat := fun a b => (a + b) % N

def modAdj (N : Nat) : Nat → Nat := fun a => (N - a % N) % N

theorem mod_exact (N : Nat) : Exact (modEl N) (id : Nat → Nat) N := by
  intro i hi j hj h
  simp only [modEl, id_eq, Nat.mod_eq_of_lt hi, Nat.mod_eq_of_lt hj] at h
  exact h

theorem mod_closedComp (N : Nat) (hN : 0 < N) :
    ClosedComp (modEl N) (modCp N) (id : Nat → Nat) N := by
  intro i hi j hj
  refine ⟨(i + j) % N, Nat.mod_lt _ hN, ?_⟩
  simp only [modEl, modCp, id_eq]
  rw [Nat.mod_eq_of_lt (Nat.mod_lt (i + j) hN)]
  exact (Nat.add_mod i j N).symm

theorem mod_cancelLeft (N : Nat) : CancelLeft (modEl N) (modCp N) (id : Nat → Nat) N := by
  intro i hi j₁ hj₁ j₂ hj₂ h
  simp only [modEl, modCp, id_eq, Nat.mod_eq_of_lt hi, Nat.mod_eq_of_lt hj₁,
    Nat.mod_eq_of_lt hj₂] at h
  have hme : Nat.ModEq N j₁ j₂ := Nat.ModEq.add_left_cancel' i h
  unfold Nat.ModEq at hme
  rw [Nat.mod_eq_of_lt hj₁, Nat.mod_eq_of_lt hj₂] at hme
  exact hme

theorem mod_closedAdj (N : Nat) (hN : 0 < N) :
    ClosedAdj (modEl N) (modAdj N) (id : Nat → Nat) N := by
  intro i hi
  refine ⟨(N - i) % N, Nat.mod_lt _ hN, ?_⟩
  simp only [modEl, modAdj, id_eq, Nat.mod_eq_of_lt hi]
  rw [Nat.mod_eq_of_lt (Nat.mod_lt (N - i) hN)]

theorem mod_adjInj (N : Nat) : AdjInj (modEl N) (modAdj N) (id : Nat → Nat) N := by
  intro i hi j hj h
  simp only [modEl, modAdj, id_eq, Nat.mod_eq_of_lt hi, Nat.mod_eq_of_lt hj,
    Nat.mod_mod_of_dvd _ (dvd_refl N)] at h
  rcases Nat.eq_zero_or_pos i with hi0 | hi0 <;> rcases Nat.eq_zero_or_pos j with hj0 | hj0
  · omega
  · subst hi0
    rw [Nat.sub_zero, Nat.mod_self, Nat.mod_eq_of_lt (by omega)] at h
    omega
  · subst hj0
    rw [Nat.sub_zero, Nat.mod_self, Nat.mod_eq_of_lt (by omega)] at h
    omega
  · rw [Nat.mod_eq_of_lt (by omega), Nat.mod_eq_of_lt (by omega)] at h
    omega

theorem mod_identityAt (N : Nat) (hN : 0 < N) :
    IdentityAt (modEl N) (modCp N) (id : Nat → Nat) N 0 := by
  refine ⟨hN, ?_⟩
  intro j hj
  constructor
  · simp only [modEl, modCp, id_eq, Nat.zero_mod, Nat.zero_add]
    rw [Nat.mod_mod_of_dvd _ (dvd_refl N)]
  · simp only [modEl, modCp, id_eq, Nat.zero_mod, Nat.add_zero]
    rw [Nat.mod_mod_of_dvd _ (dvd_refl N)]

theorem mod_invLaw (N : Nat) (hN : 0 < N) :
    InvLaw (modEl N) (modCp N) (modAdj N) (id : Nat → Nat) N 0 := by
  intro i hi
  simp only [modEl, modCp, modAdj, id_eq, Nat.zero_mod, Nat.mod_eq_of_lt hi]
  rcases Nat.eq_zero_or_pos i with hi0 | hi0
  · subst hi0
    simp
  · have h1 : (N - i) % N = N - i := Nat.mod_eq_of_lt (by omega)
    rw [h1]
    have h2 : i + (N - i) = N := by omega
    rw [h2, Nat.mod_self]

theorem mod_compRespects (N : Nat) : CompRespects (modCp N) (id : Nat → Nat) := by
  intro a b c h
  simp only [id_eq] at h
  simp only [modCp, h]

theorem mod_toInt (N : Nat) {k : Nat} (hk : k < N) :
    toIntMap (modEl N) (id : Nat → Nat) N k = some k := by
  have h := buildToInt_self (f := fun i => id (modEl N i)) (N := N)
    (fun i hi j hj h => mod_exact N i hi j hj h) hk
  simpa [modEl, Nat.mod_eq_of_lt hk] using h

theorem mod_toInt_comp_isSome (N : Nat) (hN : 0 < N) (i g : Nat) :
    (toIntMap (modEl N) (id : Nat → Nat) N
      (id (modCp N (modEl N i) (modEl N g)))).isSome = true := by
  have hlt : modCp N (modEl N i) (modEl N g) < N := Nat.mod_lt _ hN
  rw [show id (modCp N (modEl N i) (modEl N g)) = modCp N (modEl N i) (modEl N g) from rfl,
    mod_toInt N hlt]
  rfl

/-! ### Structure of `mainRun` executions -/

/-- Holds when `r` is a successful `Except` result. -/
def exceptOk {α : Type} (r : Except GenError α) : Bool :=
  match r with
  | .ok _ => true
  | .error _ => false

theorem exceptOk_iff {α : Type} {r : Except GenError α} :
    exceptOk r = true ↔ ∃ x, r = .ok x := by
  cases r with
  | ok x => simp [exceptOk]
  | error e => simp [exceptOk]

theorem get?_take_some {α : Type} :
    ∀ (l : List α) (k n : Nat) (x : α),
      (l.take k).get? n = some x → l.get? n = some x ∧ n < k := by
  intro l
  induction l with
  | nil => intro k n x h; simp at h
  | cons a t ih =>
      intro k n x h
      cases k with
      | zero => simp at h
      | succ k =>
          cases n with
          | zero =>
              simp only [List.take, List.get?] at h ⊢
              exact ⟨h, Nat.succ_pos k⟩
          | succ n =>
              simp only [List.take, List.get?] at h ⊢
              obtain ⟨h₁, h₂⟩ := ih k n x h
              exact ⟨h₁, Nat.succ_lt_succ h₂⟩

section MainLemmas

variable {E1 K1 E2 K2 : Type} [DecidableEq K1] [DecidableEq K2]

/-- Every run's event list is a prefix of the full success trace, so events
happen in the program order fixed by `fullEvents`. -/
theorem mainRun_events_take_form (A : MainArgs E1 K1 E2 K2) :
    ∃ k, (mainRun A).1 = fullEvents.take k := by
  unfold mainRun
  cases gen_cliff_single_1q_gate_map A.el1 A.key1 A.gc1 with
  | error e => exact ⟨0, rfl⟩
  | ok m1 =>
      cases h1 : gmEqb A.pub1 m1 with
      | false => simp only [h1, Bool.false_eq_true, if_false]; exact ⟨0, rfl⟩
      | true =>
          simp only [h1, if_true]
          cases gen_clifford_inverse_1q A.el1 A.adj1 A.key1 with
          | error e => exact ⟨1, rfl⟩
          | ok t1 =>
              cases gen_clifford_compose_1q A.el1 A.cp1 A.key1 with
              | error e => exact ⟨2, rfl⟩
              | ok t2 =>
                  cases gen_cliff_single_2q_gate_map A.el2 A.key2 A.gc2 with
                  | error e => exact ⟨3, rfl⟩
                  | ok m2 =>
                      cases h2 : gmEqb A.pub2 m2 with
                      | false => simp only [h2, Bool.false_eq_true, if_false]; exact ⟨3, rfl⟩
                      | true =>
                          simp only [h2, if_true]
                          cases gen_clifford_inverse_2q A.el2 A.adj2 A.key2 with
                          | error e => exact ⟨4, rfl⟩
                          | ok t3 =>
                              cases gen_clifford_compose_2q_gate A.el2 A.cp2 A.key2
                                  (A.pub2.map (fun e => e.2)) with
                              | error e => exact ⟨6, rfl⟩
                              | ok m => exact ⟨7, rfl⟩

/-- A run in which both validations pass and every generation step succeeds
produces the full trace and no error. -/
theorem mainRun_success (A : MainArgs E1 K1 E2 K2)
    (h1 : mapMatches A.pub1 (gen_cliff_single_1q_gate_map A.el1 A.key1 A.gc1) = true)
    (h2 : exceptOk (gen_clifford_inverse_1q A.el1 A.adj1 A.key1) = true)
    (h3 : exceptOk (gen_clifford_compose_1q A.el1 A.cp1 A.key1) = true)
    (h4 : mapMatches A.pub2 (gen_cliff_single_2q_gate_map A.el2 A.key2 A.gc2) = true)
    (h5 : exceptOk (gen_clifford_inverse_2q A.el2 A.adj2 A.key2) = true)
    (h6 : exceptOk (gen_clifford_compose_2q_gate A.el2 A.cp2 A.key2
      (A.pub2.map (fun e => e.2))) = true) :
    mainRun A = (fullEvents, none) := by
  unfold mainRun
  cases hg1 : gen_cliff_single_1q_gate_map A.el1 A.key1 A.gc1 with
  | error e => rw [hg1] at h1; simp [mapMatches] at h1
  | ok m1 =>
      rw [hg1] at h1
      simp only [mapMatches] at h1
      simp only [h1, if_true]
      obtain ⟨t1, ht1⟩ := exceptOk_iff.mp h2
      rw [ht1]
      obtain ⟨t2, ht2⟩ := exceptOk_iff.mp h3
      rw [ht2]
      cases hg2 : gen_cliff_single_2q_gate_map A.el2 A.key2 A.gc2 with
      | error e => rw [hg2] at h4; simp [mapMatches] at h4
      | ok m2 =>
          rw [hg2] at h4
          simp only [mapMatches] at h4
          simp only [h4, if_true]
          obtain ⟨t3, ht3⟩ := exceptOk_iff.mp h5
          rw [ht3]
          obtain ⟨m, hm⟩ := exceptOk_iff.mp h6
          rw [hm]

/-- On a failed 1-qubit generator-map comparison (or a failure while
reconstructing that map) the run stops with no events at all. -/
theorem mainRun_mismatch1q (A : MainArgs E1 K1 E2 K2)
    (h : mapMatches A.pub1 (gen_cliff_single_1q_gate_map A.el1 A.key1 A.gc1) = false) :
    (mainRun A).1 = [] ∧ (mainRun A).2 ≠ none := by
  unfold mainRun
  cases hg1 : gen_cliff_single_1q_gate_map A.el1 A.key1 A.gc1 with
  | error e =>
      constructor
      · rfl
      · simp
  | ok m1 =>
      rw [hg1] at h
      simp only [mapMatches] at h
      simp only [h, Bool.false_eq_true, if_false]
      constructor
      · trivial
      · simp


/-- When the 1-qubit phase fully succeeds but the 2-qubit generator map
mismatches, the two 1-qubit artifacts are already written and the run
raises the 2-qubit mismatch. -/
theorem mainRun_mismatch2q (A : MainArgs E1 K1 E2 K2)
    (h1 : mapMatches A.pub1 (gen_cliff_single_1q_gate_map A.el1 A.key1 A.gc1) = true)
    (h2 : exceptOk (gen_clifford_inverse_1q A.el1 A.adj1 A.key1) = true)
    (h3 : exceptOk (gen_clifford_compose_1q A.el1 A.cp1 A.key1) = true)
    (h4 : exceptOk (gen_cliff_single_2q_gate_map A.el2 A.key2 A.gc2) = true)
    (h5 : mapMatches A.pub2 (gen_cliff_single_2q_gate_map A.el2 A.key2 A.gc2) = false) :
    mainRun A = ([.check1qPassed, .wroteInverse1q, .wroteCompose1q], some .mismatch2q) := by
  unfold mainRun
  cases hg1 : gen_cliff_single_1q_gate_map A.el1 A.key1 A.gc1 with
  | error e => rw [hg1] at h1; simp [mapMatches] at h1
  | ok m1 =>
      rw [hg1] at h1
      simp only [mapMatches] at h1
      simp only [h1, if_true]
      obtain ⟨t1, ht1⟩ := exceptOk_iff.mp h2
      rw [ht1]
      obtain ⟨t2, ht2⟩ := exceptOk_iff.mp h3
      rw [ht2]
      obtain ⟨m2, hm2⟩ := exceptOk_iff.mp h4
      rw [hm2]
      rw [hm2] at h5
      simp only [mapMatches] at h5
      simp only [h5, Bool.false_eq_true, if_false]

/-- Under a mismatching (or failed) 2-qubit generator-map reconstruction the
sparse builder is never invoked and the run raises. -/
theorem mainRun_no_sparse_of_mismatch2q (A : MainArgs E1 K1 E2 K2)
    (h : mapMatches A.pub2 (gen_cliff_single_2q_gate_map A.el2 A.key2 A.gc2) = false) :
    Event.invokedGenCompose2q ∉ (mainRun A).1 ∧ (mainRun A).2 ≠ none := by
  unfold mainRun
  cases hg1 : gen_cliff_single_1q_gate_map A.el1 A.key1 A.gc1 with
  | error e => exact ⟨by simp, by simp⟩
  | ok m1 =>
      cases h1 : gmEqb A.pub1 m1 with
      | false =>
          simp only [h1, Bool.false_eq_true, if_false]
          exact ⟨by simp, by simp⟩
      | true =>
          simp only [h1, if_true]
          cases gen_clifford_inverse_1q A.el1 A.adj1 A.key1 with
          | error e => exact ⟨by simp, by simp⟩
          | ok t1 =>
              cases gen_clifford_compose_1q A.el1 A.cp1 A.key1 with
              | error e => exact ⟨by simp, by simp⟩
              | ok t2 =>
                  cases hg2 : gen_cliff_single_2q_gate_map A.el2 A.key2 A.gc2 with
                  | error e => exact ⟨by simp, by simp⟩
                  | ok m2 =>
                      rw [hg2] at h
                      simp only [mapMatches] at h
                      simp only [h, Bool.false_eq_true, if_false]
                      exact ⟨by simp, by simp⟩

/-- The event `invokedGenCompose2q` sits only at index 5 of the full trace. -/
theorem fullEvents_invoked_index :
    ∀ n, fullEvents.get? n = some Event.invokedGenCompose2q → n = 5 := by
  intro n h
  rcases n with _|_|_|_|_|_|_|n
  · simp [fullEvents, List.get?] at h
  · simp [fullEvents, List.get?] at h
  · simp [fullEvents, List.get?] at h
  · simp [fullEvents, List.get?] at h
  · simp [fullEvents, List.get?] at h
  · rfl
  · simp [fullEvents, List.get?] at h
  · simp [fullEvents, List.get?] at h

end MainLemmas

/-! ### Additional helper lemmas for the claims -/

theorem toIntMap_self {E K : Type} [DecidableEq K] {el : Nat → E} {key : E → K} {N : Nat}
    (hex : Exact el key N) {i : Nat} (hi : i < N) :
    toIntMap el key N (key (el i)) = some i :=
  buildToInt_self (f := fun i => key (el i)) (fun i hi j hj h => hex i hi j hj h) hi

theorem buildToInt_collision {K : Type} [DecidableEq K] {f : Nat → K} {N i j : Nat}
    (hij : i < j) (hj : j < N) (hkey : f i = f j) :
    (buildToInt f N (f i)).isSome = true ∧ j ≤ (buildToInt f N (f i)).getD 0 := by
  have hs : (buildToInt f N (f i)).isSome = true :=
    buildToInt_isSome (f := f) j hj hkey.symm
  obtain ⟨m, hm⟩ := Option.isSome_iff_exists.mp hs
  have hle := buildToInt_le hm j hj hkey.symm
  rw [hm]
  exact ⟨rfl, by simpa using hle⟩

theorem fillRow_vals_nil {E K : Type} [DecidableEq K] (el : Nat → E) (cp : E → E → E)
    (key : E → K) (N lhs : Nat) (m : SparseMat) :
    fillRow el cp key N lhs [] m = .ok m := rfl

theorem fillRows_vals_nil {E K : Type} [DecidableEq K] (el : Nat → E) (cp : E → E → E)
    (key : E → K) (N : Nat) :
    ∀ (rows : List Nat) (m : SparseMat), fillRows el cp key N [] rows m = .ok m := by
  intro rows
  induction rows with
  | nil => intro m; rfl
  | cons r rest ih =>
      intro m
      unfold fillRows
      rw [fillRow_vals_nil]
      exact ih m

theorem get?_take_lt {α : Type} :
    ∀ (l : List α) (k n : Nat), n < k → (l.take k).get? n = l.get? n := by
  intro l
  induction l with
  | nil => intro k n _; simp
  | cons a t ih =>
      intro k n hnk
      cases k with
      | zero => omega
      | succ k =>
          cases n with
          | zero => rfl
          | succ n =>
              simp only [List.take, List.get?]
              exact ih k n (by omega)

/-! ### The claims -/

/-- C1, counterexample: with a (modelled) enumerator under which the distinct
indices 0 and 1 produce identical canonical keys, the dict-comprehension
construction of `_TO_INT_1Q` does not fail fatally: the lookup of the shared
key succeeds (returning the last colliding index, 23), i.e. the construction
silently proceeded with a key-to-index map that dropped the other colliding
indices — contradicting the claim that construction must fail. -/
theorem C1_counterexample :
    (fun _ : Nat => (0 : Nat)) 0 = (fun _ : Nat => (0 : Nat)) 1 ∧ (0 : Nat) ≠ 1 ∧
      _TO_INT_1Q (fun _ : Nat => (0 : Nat)) (id : Nat → Nat)
        ((id : Nat → Nat) ((fun _ : Nat => (0 : Nat)) 0)) = some 23 := by
  decide

/-- C1, amended: if two different indices `i < j` below the group size yield
identical canonical keys, the construction of `_TO_INT_1Q` / `_TO_INT_2Q`
does not fail: it silently produces a total map in which the shared key
resolves to an index at least `j` (Python dict comprehensions let later
insertions win), so index `i` is dropped without any error. -/
theorem C1_amended_toInt_last_wins {E1 K1 E2 K2 : Type} [DecidableEq K1] [DecidableEq K2]
    (el1 : Nat → E1) (key1 : E1 → K1) (el2 : Nat → E2) (key2 : E2 → K2) (i j : Nat) :
    (i < j → j < NUM_CLIFFORD_1Q → key1 (el1 i) = key1 (el1 j) →
      (_TO_INT_1Q el1 key1 (key1 (el1 i))).isSome = true ∧
        j ≤ (_TO_INT_1Q el1 key1 (key1 (el1 i))).getD 0)
    ∧ (i < j → j < NUM_CLIFFORD_2Q → key2 (el2 i) = key2 (el2 j) →
      (_TO_INT_2Q el2 key2 (key2 (el2 i))).isSome = true ∧
        j ≤ (_TO_INT_2Q el2 key2 (key2 (el2 i))).getD 0) := by
  constructor
  · intro hij hj hkey
    exact buildToInt_collision (f := fun n => key1 (el1 n)) hij hj hkey
  · intro hij hj hkey
    exact buildToInt_collision (f := fun n => key2 (el2 n)) hij hj hkey

/-- Witness for the amended C1, at the constant enumerators. -/
theorem C1_amended_witness :
    ((_TO_INT_1Q (fun _ : Nat => (0 : Nat)) (id : Nat → Nat)
        ((id : Nat → Nat) ((fun _ : Nat => (0 : Nat)) 0))).isSome = true ∧
      1 ≤ (_TO_INT_1Q (fun _ : Nat => (0 : Nat)) (id : Nat → Nat)
        ((id : Nat → Nat) ((fun _ : Nat => (0 : Nat)) 0))).getD 0)
    ∧ ((_TO_INT_2Q (fun _ : Nat => (0 : Nat)) (id : Nat → Nat)
        ((id : Nat → Nat) ((fun _ : Nat => (0 : Nat)) 0))).isSome = true ∧
      1 ≤ (_TO_INT_2Q (fun _ : Nat => (0 : Nat)) (id : Nat → Nat)
        ((id : Nat → Nat) ((fun _ : Nat => (0 : Nat)) 0))).getD 0) :=
  ⟨(C1_amended_toInt_last_wins (fun _ => 0) id (fun _ => 0) id 0 1).1
      (by decide) (by decide) rfl,
   (C1_amended_toInt_last_wins (fun _ => 0) id (fun _ => 0) id 0 1).2
      (by decide) (by decide) rfl⟩

/-- C5: `_hash_cliff` is a total function, and for Clifford elements on the
same number of qubits (tableaus of the same shape, hence flattened tableaus
of the same length) the canonical keys agree iff the tableaus agree. -/
theorem C5_hash_cliff_iff (a b : CliffordRepr)
    (h : a.tableau.length = b.tableau.length) :
    _hash_cliff a = _hash_cliff b ↔ a.tableau = b.tableau := by
  constructor
  · intro hh
    exact packbits_injOn h hh
  · intro ht
    unfold _hash_cliff
    rw [ht]

/-- Witness for C5 at two concrete 3-bit tableaus. -/
theorem C5_witness :
    (⟨[true, false, true]⟩ : CliffordRepr).tableau.length
        = (⟨[false, false, true]⟩ : CliffordRepr).tableau.length ∧
      (_hash_cliff ⟨[true, false, true]⟩ = _hash_cliff ⟨[false, false, true]⟩
        ↔ (⟨[true, false, true]⟩ : CliffordRepr).tableau
            = (⟨[false, false, true]⟩ : CliffordRepr).tableau) :=
  ⟨rfl, C5_hash_cliff_iff _ _ rfl⟩

/-- C3: given that the external enumerator covers the closed group exactly
once (exactness, closure, left cancellation), `gen_clifford_compose_1q`
succeeds — its in-loop assertion never fires — and each of its 24 rows is a
permutation of `{0, …, 23}`. -/
theorem C3_compose1q_rows_perm {E K : Type} [DecidableEq K]
    (el : Nat → E) (cp : E → E → E) (key : E → K)
    (hex : Exact el key NUM_CLIFFORD_1Q)
    (hcl : ClosedComp el cp key NUM_CLIFFORD_1Q)
    (hcn : CancelLeft el cp key NUM_CLIFFORD_1Q) :
    ∃ T, gen_clifford_compose_1q el cp key = .ok T ∧ T.length = 24 ∧
      ∀ row ∈ T, List.Perm row (List.range 24) := by
  obtain ⟨T, hT, hlen, hrows, -⟩ :=
    gen_clifford_compose_spec el cp key NUM_CLIFFORD_1Q hex hcl hcn
  exact ⟨T, hT, hlen, hrows⟩

/-- Witness for C3 at the cyclic collaborator Z/24. -/
theorem C3_witness :
    Exact (modEl 24) (id : Nat → Nat) 24
      ∧ ClosedComp (modEl 24) (modCp 24) (id : Nat → Nat) 24
      ∧ CancelLeft (modEl 24) (modCp 24) (id : Nat → Nat) 24
      ∧ ∃ T, gen_clifford_compose_1q (modEl 24) (modCp 24) (id : Nat → Nat) = .ok T ∧
          T.length = 24 ∧ ∀ row ∈ T, List.Perm row (List.range 24) :=
  ⟨mod_exact 24, mod_closedComp 24 (by decide), mod_cancelLeft 24,
   C3_compose1q_rows_perm (modEl 24) (modCp 24) id (mod_exact 24)
     (mod_closedComp 24 (by decide)) (mod_cancelLeft 24)⟩

/-- C7: with `e` the index of the identity element, the 1Q composition table
satisfies the left and right identity laws: row `e` is the identity row and
column `e` is the identity column. -/
theorem C7_identity_laws {E K : Type} [DecidableEq K]
    (el : Nat → E) (cp : E → E → E) (key : E → K) (e : Nat)
    (hex : Exact el key NUM_CLIFFORD_1Q)
    (hcl : ClosedComp el cp key NUM_CLIFFORD_1Q)
    (hcn : CancelLeft el cp key NUM_CLIFFORD_1Q)
    (hid : IdentityAt el cp key NUM_CLIFFORD_1Q e) :
    ∃ T, gen_clifford_compose_1q el cp key = .ok T ∧
      ∀ j, j < 24 → (T.getD e []).getD j 0 = j ∧ (T.getD j []).getD e 0 = j := by
  obtain ⟨T, hT, -, -, hpt⟩ :=
    gen_clifford_compose_spec el cp key NUM_CLIFFORD_1Q hex hcl hcn
  obtain ⟨heN, hlaws⟩ := hid
  refine ⟨T, hT, ?_⟩
  intro j hj
  constructor
  · have h1 := hpt e heN j hj
    rw [(hlaws j hj).1] at h1
    have h2 := toIntMap_self hex hj
    rw [h1] at h2
    exact (Option.some.injEq _ _).mp h2
  · have h1 := hpt j hj e heN
    rw [(hlaws j hj).2] at h1
    have h2 := toIntMap_self hex hj
    rw [h1] at h2
    exact (Option.some.injEq _ _).mp h2

/-- Witness for C7 at the cyclic collaborator Z/24 with identity index 0. -/
theorem C7_witness :
    IdentityAt (modEl 24) (modCp 24) (id : Nat → Nat) 24 0
      ∧ ∃ T, gen_clifford_compose_1q (modEl 24) (modCp 24) (id : Nat → Nat) = .ok T ∧
          ∀ j, j < 24 → (T.getD 0 []).getD j 0 = j ∧ (T.getD j []).getD 0 0 = j :=
  ⟨mod_identityAt 24 (by decide),
   C7_identity_laws (modEl 24) (modCp 24) id 0 (mod_exact 24)
     (mod_closedComp 24 (by decide)) (mod_cancelLeft 24) (mod_identityAt 24 (by decide))⟩

/-- Specification of `gen_clifford_inverse` under the collaborator
guarantees, generic in the group size. -/
theorem inverse_table_spec {E K : Type} [DecidableEq K]
    (el : Nat → E) (adj : E → E) (cp : E → E → E) (key : E → K) (N e : Nat)
    (hex : Exact el key N) (hca : ClosedAdj el adj key N) (hai : AdjInj el adj key N)
    (hcr : CompRespects cp key) (hil : InvLaw el cp adj key N e) (heN : e < N) :
    ∃ invs, gen_clifford_inverse el adj key N = .ok invs ∧
      List.Perm invs (List.range N) ∧
      ∀ i, i < N → toIntMap el key N (key (cp (el i) (el (invs.getD i 0)))) = some e := by
  obtain ⟨invs, hok, hperm, hlen, hpt⟩ := gen_clifford_inverse_spec el adj key N hex hca hai
  refine ⟨invs, hok, hperm, ?_⟩
  intro i hi
  obtain ⟨hlt, hkey, -⟩ := hpt i hi
  have h1 : key (cp (el i) (el (invs.getD i 0))) = key (cp (el i) (adj (el i))) :=
    hcr _ _ _ hkey
  rw [h1, hil i hi]
  exact toIntMap_self hex heN

/-- C4: for both groups, the generated inverse table is a permutation of the
index range (its assert passes), and composing element `i` with the element
at index `invs[i]` resolves to the identity index. -/
theorem C4_inverse_tables {E1 K1 E2 K2 : Type} [DecidableEq K1] [DecidableEq K2]
    (el1 : Nat → E1) (adj1 : E1 → E1) (cp1 : E1 → E1 → E1) (key1 : E1 → K1) (e1 : Nat)
    (el2 : Nat → E2) (adj2 : E2 → E2) (cp2 : E2 → E2 → E2) (key2 : E2 → K2) (e2 : Nat)
    (hex1 : Exact el1 key1 NUM_CLIFFORD_1Q)
    (hca1 : ClosedAdj el1 adj1 key1 NUM_CLIFFORD_1Q)
    (hai1 : AdjInj el1 adj1 key1 NUM_CLIFFORD_1Q)
    (hcr1 : CompRespects cp1 key1)
    (hid1 : IdentityAt el1 cp1 key1 NUM_CLIFFORD_1Q e1)
    (hil1 : InvLaw el1 cp1 adj1 key1 NUM_CLIFFORD_1Q e1)
    (hex2 : Exact el2 key2 NUM_CLIFFORD_2Q)
    (hca2 : ClosedAdj el2 adj2 key2 NUM_CLIFFORD_2Q)
    (hai2 : AdjInj el2 adj2 key2 NUM_CLIFFORD_2Q)
    (hcr2 : CompRespects cp2 key2)
    (hid2 : IdentityAt el2 cp2 key2 NUM_CLIFFORD_2Q e2)
    (hil2 : InvLaw el2 cp2 adj2 key2 NUM_CLIFFORD_2Q e2) :
    (∃ invs, gen_clifford_inverse_1q el1 adj1 key1 = .ok invs ∧
      List.Perm invs (List.range 24) ∧
      ∀ i, i < 24 →
        toIntMap el1 key1 24 (key1 (cp1 (el1 i) (el1 (invs.getD i 0)))) = some e1)
    ∧ (∃ invs, gen_clifford_inverse_2q el2 adj2 key2 = .ok invs ∧
      List.Perm invs (List.range 11520) ∧
      ∀ i, i < 11520 →
        toIntMap el2 key2 11520 (key2 (cp2 (el2 i) (el2 (invs.getD i 0)))) = some e2) :=
  ⟨inverse_table_spec el1 adj1 cp1 key1 NUM_CLIFFORD_1Q e1 hex1 hca1 hai1 hcr1 hil1 hid1.1,
   inverse_table_spec el2 adj2 cp2 key2 NUM_CLIFFORD_2Q e2 hex2 hca2 hai2 hcr2 hil2 hid2.1⟩

/-- Witness for C4 at the cyclic collaborators Z/24 and Z/11520. -/
theorem C4_witness :
    Exact (modEl 11520) (id : Nat → Nat) 11520
      ∧ InvLaw (modEl 11520) (modCp 11520) (modAdj 11520) (id : Nat → Nat) 11520 0
      ∧ (∃ invs, gen_clifford_inverse_1q (modEl 24) (modAdj 24) (id : Nat → Nat) = .ok invs ∧
          List.Perm invs (List.range 24) ∧
          ∀ i, i < 24 →
            toIntMap (modEl 24) (id : Nat → Nat) 24
              ((id : Nat → Nat) (modCp 24 (modEl 24 i) (modEl 24 (invs.getD i 0)))) = some 0)
      ∧ (∃ invs, gen_clifford_inverse_2q (modEl 11520) (modAdj 11520) (id : Nat → Nat) = .ok invs ∧
          List.Perm invs (List.range 11520) ∧
          ∀ i, i < 11520 →
            toIntMap (modEl 11520) (id : Nat → Nat) 11520
              ((id : Nat → Nat) (modCp 11520 (modEl 11520 i) (modEl 11520 (invs.getD i 0)))) = some 0) := by
  have h := C4_inverse_tables (modEl 24) (modAdj 24) (modCp 24) id 0
    (modEl 11520) (modAdj 11520) (modCp 11520) id 0
    (mod_exact 24) (mod_closedAdj 24 (by decide)) (mod_adjInj 24)
    (mod_compRespects 24) (mod_identityAt 24 (by decide)) (mod_invLaw 24 (by decide))
    (mod_exact 11520) (mod_closedAdj 11520 (by decide)) (mod_adjInj 11520)
    (mod_compRespects 11520) (mod_identityAt 11520 (by decide)) (mod_invLaw 11520 (by decide))
  exact ⟨mod_exact 11520, mod_invLaw 11520 (by decide), h.1, h.2⟩

/-- C6: a successfully generated sparse 2Q composition table has logical
shape `(11520, 11520)`, and every stored entry sits in a column drawn from
the generator-map values, in a row below 11520, with a stored index below
11520. -/
theorem C6_sparse_entries {E K : Type} [DecidableEq K]
    (el : Nat → E) (cp : E → E → E) (key : E → K) (vals : List Nat) (m : SparseMat)
    (h : gen_clifford_compose_2q_gate el cp key vals = .ok m) :
    m.shape = (11520, 11520) ∧
      ∀ e ∈ m.entries, e.1.2 ∈ vals ∧ e.2 < 11520 ∧ e.1.1 < 11520 := by
  unfold gen_clifford_compose_2q_gate at h
  cases hf : fillRows el cp key NUM_CLIFFORD_2Q vals (List.range NUM_CLIFFORD_2Q)
      { shape := (NUM_CLIFFORD_2Q, NUM_CLIFFORD_2Q), entries := [] } with
  | error e => rw [hf] at h; cases h
  | ok m0 =>
      rw [hf] at h
      cases h
      constructor
      · exact fillRows_shape el cp key NUM_CLIFFORD_2Q vals _ _ _ hf
      · intro e he
        rcases fillRows_entries el cp key NUM_CLIFFORD_2Q vals _ _ _ hf e he with h' | h'
        · cases h'
        · obtain ⟨hrow, hcol, hti, -⟩ := h'
          exact ⟨hcol, (buildToInt_some hti).1, List.mem_range.mp hrow⟩

/-- Witness for C6: with an empty generator-value list the builder returns
the empty sparse table of shape `(11520, 11520)`. -/
theorem C6_witness :
    gen_clifford_compose_2q_gate (modEl 11520) (modCp 11520) (id : Nat → Nat) [] =
        .ok { shape := (11520, 11520), entries := [] } ∧
      ({ shape := (11520, 11520), entries := [] } : SparseMat).shape = (11520, 11520) ∧
      ∀ e ∈ ({ shape := (11520, 11520), entries := [] } : SparseMat).entries,
        e.1.2 ∈ ([] : List Nat) ∧ e.2 < 11520 ∧ e.1.1 < 11520 := by
  have hgen : gen_clifford_compose_2q_gate (modEl 11520) (modCp 11520) (id : Nat → Nat) [] =
      .ok { shape := (11520, 11520), entries := [] } := by
    unfold gen_clifford_compose_2q_gate
    rw [fillRows_vals_nil]
    rfl
  have h := C6_sparse_entries (modEl 11520) (modCp 11520) id [] _ hgen
  exact ⟨hgen, h.1, h.2⟩

/-- C9: at every populated position `(lhs, g)` — `lhs` a row, `g` a
generator-map value — reading the CSR result returns exactly the index of
the composite, including when that index is 0; and in the zero case the
table stores no explicit entry at `(lhs, g)` (assigning 0 to a
`lil_matrix` records nothing), so the zero is represented only
implicitly. -/
theorem C9_sparse_read_zero_implicit {E K : Type} [DecidableEq K]
    (el : Nat → E) (cp : E → E → E) (key : E → K) (vals : List Nat)
    (hex : Exact el key NUM_CLIFFORD_2Q)
    (hvals : ∀ g ∈ vals, g < NUM_CLIFFORD_2Q)
    (hcl : ∀ i, i < NUM_CLIFFORD_2Q → ∀ g ∈ vals, ∃ k, k < NUM_CLIFFORD_2Q ∧
      key (cp (el i) (el g)) = key (el k))
    (lhs g : Nat) (hl : lhs < NUM_CLIFFORD_2Q) (hg : g ∈ vals) :
    readResult (gen_clifford_compose_2q_gate el cp key vals) lhs g
        = toIntMap el key NUM_CLIFFORD_2Q (key (cp (el lhs) (el g)))
      ∧ (toIntMap el key NUM_CLIFFORD_2Q (key (cp (el lhs) (el g))) = some 0 →
          entryFreeB (gen_clifford_compose_2q_gate el cp key vals) lhs g = true) := by
  have hsome : ∀ i, i < NUM_CLIFFORD_2Q → ∀ g' ∈ vals,
      ∃ v, toIntMap el key NUM_CLIFFORD_2Q (key (cp (el i) (el g'))) = some v := by
    intro i hi g' hg'
    obtain ⟨k, hkN, hkey⟩ := hcl i hi g' hg'
    exact ⟨k, by rw [hkey]; exact toIntMap_self hex hkN⟩
  obtain ⟨m0, hm0⟩ := fillRows_ok el cp key NUM_CLIFFORD_2Q vals (List.range NUM_CLIFFORD_2Q)
    { shape := (NUM_CLIFFORD_2Q, NUM_CLIFFORD_2Q), entries := [] }
    (by
      intro i hi g' hg'
      obtain ⟨v, hv⟩ := hsome i (List.mem_range.mp hi) g' hg'
      exact ⟨hvals g' hg', by rw [hv]; rfl⟩)
  have hgen : gen_clifford_compose_2q_gate el cp key vals = .ok m0 := by
    unfold gen_clifford_compose_2q_gate
    rw [hm0]
    rfl
  obtain ⟨v, hv⟩ := hsome lhs hl g hg
  have hread : m0.read lhs g = v :=
    fillRows_read el cp key NUM_CLIFFORD_2Q vals (List.range NUM_CLIFFORD_2Q) _ _ hm0
      lhs g v (List.mem_range.mpr hl) hg hv
  constructor
  · rw [hgen, hv]
    simp only [readResult]
    rw [hread]
  · intro h0
    rw [hgen]
    unfold entryFreeB
    rw [List.all_eq_true]
    intro e he
    simp only [decide_eq_true_eq]
    intro hpos
    rcases fillRows_entries el cp key NUM_CLIFFORD_2Q vals _ _ _ hm0 e he with h' | h'
    · cases h'
    · obtain ⟨-, -, hti, hnz⟩ := h'
      rw [hpos] at hti
      simp only at hti
      rw [h0] at hti
      exact hnz ((Option.some.injEq _ _).mp hti).symm

/-- Witness for C9 at the cyclic collaborator Z/11520, generator value 11519
and row 1 — a populated position whose composite has index 0. -/
theorem C9_witness :
    Exact (modEl 11520) (id : Nat → Nat) 11520 ∧ (1 : Nat) < 11520 ∧
      (11519 : Nat) ∈ [11519] ∧
      (readResult (gen_clifford_compose_2q_gate (modEl 11520) (modCp 11520)
            (id : Nat → Nat) [11519]) 1 11519
          = toIntMap (modEl 11520) (id : Nat → Nat) 11520
              ((id : Nat → Nat) (modCp 11520 (modEl 11520 1) (modEl 11520 11519)))
        ∧ (toIntMap (modEl 11520) (id : Nat → Nat) 11520
              ((id : Nat → Nat) (modCp 11520 (modEl 11520 1) (modEl 11520 11519))) = some 0 →
            entryFreeB (gen_clifford_compose_2q_gate (modEl 11520) (modCp 11520)
              (id : Nat → Nat) [11519]) 1 11519 = true)) := by
  refine ⟨mod_exact 11520, by decide, by decide, ?_⟩
  exact C9_sparse_read_zero_implicit (modEl 11520) (modCp 11520) id [11519]
    (mod_exact 11520)
    (by intro g hg; simp at hg; subst hg; decide)
    (by
      intro i hi g hg
      simp at hg
      subst hg
      exact mod_closedComp 11520 (by decide) i hi 11519 (by decide))
    1 11519 (by decide) (by decide)

/-- C2: whenever the reconstructed 2Q generator map differs from the
published constant (or its reconstruction fails), the run raises and
`gen_clifford_compose_2q_gate` is never invoked; moreover in every run the
2Q validation event strictly precedes the sparse-generation event. -/
theorem C2_validation_blocks_sparse {E1 K1 E2 K2 : Type}
    [DecidableEq K1] [DecidableEq K2] (A : MainArgs E1 K1 E2 K2) :
    ((mapMatches A.pub2 (gen_cliff_single_2q_gate_map A.el2 A.key2 A.gc2) = false) →
        Event.invokedGenCompose2q ∉ (mainRun A).1 ∧ (mainRun A).2 ≠ none)
      ∧ (∀ n, (mainRun A).1.get? n = some Event.invokedGenCompose2q →
          ∃ m, m < n ∧ (mainRun A).1.get? m = some Event.check2qPassed) := by
  constructor
  · exact mainRun_no_sparse_of_mismatch2q A
  · intro n h
    obtain ⟨k, hk⟩ := mainRun_events_take_form A
    rw [hk] at h
    obtain ⟨hfull, hnk⟩ := get?_take_some fullEvents k n _ h
    have hn5 := fullEvents_invoked_index n hfull
    subst hn5
    refine ⟨3, by omega, ?_⟩
    rw [hk, get?_take_lt fullEvents k 3 (by omega)]
    rfl

/-- C8: generator-map construction is a pure function of its inputs (two
runs over the same enumeration coincide), and a run that passes a
validation check has a reconstructed map equal (as a dict) to the
corresponding published constant. -/
theorem C8_genmap_deterministic {E1 K1 E2 K2 : Type}
    [DecidableEq K1] [DecidableEq K2] (A : MainArgs E1 K1 E2 K2) :
    (gen_cliff_single_1q_gate_map A.el1 A.key1 A.gc1
        = gen_cliff_single_1q_gate_map A.el1 A.key1 A.gc1
      ∧ gen_cliff_single_2q_gate_map A.el2 A.key2 A.gc2
        = gen_cliff_single_2q_gate_map A.el2 A.key2 A.gc2)
      ∧ (Event.check1qPassed ∈ (mainRun A).1 →
          mapMatches A.pub1 (gen_cliff_single_1q_gate_map A.el1 A.key1 A.gc1) = true)
      ∧ (Event.check2qPassed ∈ (mainRun A).1 →
          mapMatches A.pub2 (gen_cliff_single_2q_gate_map A.el2 A.key2 A.gc2) = true) := by
  refine ⟨⟨rfl, rfl⟩, ?_, ?_⟩
  · unfold mainRun
    cases hg1 : gen_cliff_single_1q_gate_map A.el1 A.key1 A.gc1 with
    | error e => intro hmem; simp at hmem
    | ok m1 =>
        cases h1 : gmEqb A.pub1 m1 with
        | false =>
            simp only [h1, Bool.false_eq_true, if_false]
            intro hmem
            simp at hmem
        | true =>
            intro _
            simp [mapMatches, h1]
  · unfold mainRun
    cases hg1 : gen_cliff_single_1q_gate_map A.el1 A.key1 A.gc1 with
    | error e => intro hmem; simp at hmem
    | ok m1 =>
        cases h1 : gmEqb A.pub1 m1 with
        | false =>
            simp only [h1, Bool.false_eq_true, if_false]
            intro hmem
            simp at hmem
        | true =>
            simp only [h1, if_true]
            cases gen_clifford_inverse_1q A.el1 A.adj1 A.key1 with
            | error e => intro hmem; simp at hmem
            | ok t1 =>
                cases gen_clifford_compose_1q A.el1 A.cp1 A.key1 with
                | error e => intro hmem; simp at hmem
                | ok t2 =>
                    cases hg2 : gen_cliff_single_2q_gate_map A.el2 A.key2 A.gc2 with
                    | error e => intro hmem; simp at hmem
                    | ok m2 =>
                        cases h2 : gmEqb A.pub2 m2 with
                        | false =>
                            simp only [h2, Bool.false_eq_true, if_false]
                            intro hmem
                            simp at hmem
                        | true =>
                            intro _
                            simp [mapMatches, h2]

/-- C10: the two generator-map checks sit asymmetrically around
persistence — a failing 1Q check stops the run before any artifact event,
while a failing 2Q check (with the 1Q phase succeeding) leaves exactly the
two 1Q artifacts written before the raise. -/
theorem C10_persistence_asymmetry {E1 K1 E2 K2 F1 L1 F2 L2 : Type}
    [DecidableEq K1] [DecidableEq K2] [DecidableEq L1] [DecidableEq L2]
    (A : MainArgs E1 K1 E2 K2) (B : MainArgs F1 L1 F2 L2)
    (hA : mapMatches A.pub1 (gen_cliff_single_1q_gate_map A.el1 A.key1 A.gc1) = false)
    (hB1 : mapMatches B.pub1 (gen_cliff_single_1q_gate_map B.el1 B.key1 B.gc1) = true)
    (hB2 : exceptOk (gen_clifford_inverse_1q B.el1 B.adj1 B.key1) = true)
    (hB3 : exceptOk (gen_clifford_compose_1q B.el1 B.cp1 B.key1) = true)
    (hB4 : exceptOk (gen_cliff_single_2q_gate_map B.el2 B.key2 B.gc2) = true)
    (hB5 : mapMatches B.pub2 (gen_cliff_single_2q_gate_map B.el2 B.key2 B.gc2) = false) :
    ((mainRun A).1 = [] ∧ (mainRun A).2 ≠ none)
      ∧ mainRun B = ([.check1qPassed, .wroteInverse1q, .wroteCompose1q],
          some .mismatch2q) :=
  ⟨mainRun_mismatch1q A hA, mainRun_mismatch2q B hB1 hB2 hB3 hB4 hB5⟩

/-! ### Concrete script inputs for the driver witnesses -/

/-- A published 1Q generator map agreeing with the collaborator below
(whose circuit builder sends every 1Q gate to element 0). -/
def pub1W : GateMap :=
  [(("id", [0]), 0), (("h", [0]), 0), (("sxdg", [0]), 0), (("s", [0]), 0),
   (("x", [0]), 0), (("sx", [0]), 0), (("y", [0]), 0), (("z", [0]), 0), (("sdg", [0]), 0)]

/-- A published 2Q generator map agreeing with the collaborator below
(whose circuit builder sends every 2Q label to element 11519). -/
def pub2W : GateMap := labels_2q.map (fun lk => (lk, 11519))

/-- Script inputs on the cyclic collaborators for which every step succeeds. -/
def argsSucc : MainArgs Nat Nat Nat Nat :=
  { pub1 := pub1W, pub2 := pub2W,
    el1 := modEl 24, adj1 := modAdj 24, cp1 := modCp 24, key1 := id,
    gc1 := fun _ => 0,
    el2 := modEl 11520, adj2 := modAdj 11520, cp2 := modCp 11520, key2 := id,
    gc2 := fun _ => 11519 }

/-- Same inputs with a 2Q published map that cannot match. -/
def argsMis2q : MainArgs Nat Nat Nat Nat := { argsSucc with pub2 := [] }

/-- Same inputs with a 1Q published map that cannot match. -/
def argsMis1q : MainArgs Nat Nat Nat Nat := { argsSucc with pub1 := [] }

theorem argsSucc_h1 :
    mapMatches argsSucc.pub1
      (gen_cliff_single_1q_gate_map argsSucc.el1 argsSucc.key1 argsSucc.gc1) = true := by
  decide

theorem argsSucc_h2 :
    exceptOk (gen_clifford_inverse_1q argsSucc.el1 argsSucc.adj1 argsSucc.key1) = true := by
  obtain ⟨invs, hok, -, -, -⟩ := gen_clifford_inverse_spec (modEl 24) (modAdj 24)
    (id : Nat → Nat) NUM_CLIFFORD_1Q (mod_exact 24) (mod_closedAdj 24 (by decide))
    (mod_adjInj 24)
  exact exceptOk_iff.mpr ⟨invs, hok⟩

theorem argsSucc_h3 :
    exceptOk (gen_clifford_compose_1q argsSucc.el1 argsSucc.cp1 argsSucc.key1) = true := by
  obtain ⟨T, hok, -, -, -⟩ := gen_clifford_compose_spec (modEl 24) (modCp 24)
    (id : Nat → Nat) NUM_CLIFFORD_1Q (mod_exact 24) (mod_closedComp 24 (by decide))
    (mod_cancelLeft 24)
  exact exceptOk_iff.mpr ⟨T, hok⟩

theorem argsSucc_h4 :
    mapMatches argsSucc.pub2
      (gen_cliff_single_2q_gate_map argsSucc.el2 argsSucc.key2 argsSucc.gc2) = true := by
  decide

theorem argsSucc_h5 :
    exceptOk (gen_clifford_inverse_2q argsSucc.el2 argsSucc.adj2 argsSucc.key2) = true := by
  obtain ⟨invs, hok, -, -, -⟩ := gen_clifford_inverse_spec (modEl 11520) (modAdj 11520)
    (id : Nat → Nat) NUM_CLIFFORD_2Q (mod_exact 11520) (mod_closedAdj 11520 (by decide))
    (mod_adjInj 11520)
  exact exceptOk_iff.mpr ⟨invs, hok⟩

theorem argsSucc_h6 :
    exceptOk (gen_clifford_compose_2q_gate argsSucc.el2 argsSucc.cp2 argsSucc.key2
      (argsSucc.pub2.map (fun e => e.2))) = true := by
  obtain ⟨m, hm⟩ := gen_compose_2q_ok (modEl 11520) (modCp 11520) (id : Nat → Nat)
    (pub2W.map (fun e => e.2))
    (by
      intro g hg
      simp [pub2W, labels_2q] at hg
      subst hg
      exact ⟨by decide, fun i _ => mod_toInt_comp_isSome 11520 (by decide) i 11519⟩)
  exact exceptOk_iff.mpr ⟨m, hm⟩

/-- Witness for C2: under the mismatching 2Q published map the sparse builder
is never invoked and the run raises; in a fully successful run the sparse
invocation sits at index 5, strictly after the 2Q validation at index 3. -/
theorem C2_witness :
    (mapMatches argsMis2q.pub2
        (gen_cliff_single_2q_gate_map argsMis2q.el2 argsMis2q.key2 argsMis2q.gc2) = false
      ∧ Event.invokedGenCompose2q ∉ (mainRun argsMis2q).1 ∧ (mainRun argsMis2q).2 ≠ none)
    ∧ ((mainRun argsSucc).1.get? 5 = some Event.invokedGenCompose2q
      ∧ ∃ m, m < 5 ∧ (mainRun argsSucc).1.get? m = some Event.check2qPassed) := by
  have hmis : mapMatches argsMis2q.pub2
      (gen_cliff_single_2q_gate_map argsMis2q.el2 argsMis2q.key2 argsMis2q.gc2) = false := by
    decide
  have h5ev : (mainRun argsSucc).1.get? 5 = some Event.invokedGenCompose2q := by
    rw [mainRun_success argsSucc argsSucc_h1 argsSucc_h2 argsSucc_h3 argsSucc_h4
      argsSucc_h5 argsSucc_h6]
    rfl
  exact ⟨⟨hmis, (C2_validation_blocks_sparse argsMis2q).1 hmis⟩,
    ⟨h5ev, (C2_validation_blocks_sparse argsSucc).2 5 h5ev⟩⟩

/-- Witness for C8 at the fully successful run. -/
theorem C8_witness :
    (Event.check1qPassed ∈ (mainRun argsSucc).1
      ∧ Event.check2qPassed ∈ (mainRun argsSucc).1)
    ∧ mapMatches argsSucc.pub1
        (gen_cliff_single_1q_gate_map argsSucc.el1 argsSucc.key1 argsSucc.gc1) = true
    ∧ mapMatches argsSucc.pub2
        (gen_cliff_single_2q_gate_map argsSucc.el2 argsSucc.key2 argsSucc.gc2) = true := by
  have hrun := mainRun_success argsSucc argsSucc_h1 argsSucc_h2 argsSucc_h3 argsSucc_h4
    argsSucc_h5 argsSucc_h6
  have hm1 : Event.check1qPassed ∈ (mainRun argsSucc).1 := by
    rw [hrun]; decide
  have hm2 : Event.check2qPassed ∈ (mainRun argsSucc).1 := by
    rw [hrun]; decide
  exact ⟨⟨hm1, hm2⟩, (C8_genmap_deterministic argsSucc).2.1 hm1,
    (C8_genmap_deterministic argsSucc).2.2 hm2⟩

/-- Witness for C10: a run with a mismatching 1Q published map, and a run in
which only the 2Q published map mismatches. -/
theorem C10_witness :
    mapMatches argsMis1q.pub1
        (gen_cliff_single_1q_gate_map argsMis1q.el1 argsMis1q.key1 argsMis1q.gc1) = false
    ∧ mapMatches argsMis2q.pub1
        (gen_cliff_single_1q_gate_map argsMis2q.el1 argsMis2q.key1 argsMis2q.gc1) = true
    ∧ exceptOk (gen_clifford_inverse_1q argsMis2q.el1 argsMis2q.adj1 argsMis2q.key1) = true
    ∧ exceptOk (gen_clifford_compose_1q argsMis2q.el1 argsMis2q.cp1 argsMis2q.key1) = true
    ∧ exceptOk (gen_cliff_single_2q_gate_map argsMis2q.el2 argsMis2q.key2 argsMis2q.gc2) = true
    ∧ mapMatches argsMis2q.pub2
        (gen_cliff_single_2q_gate_map argsMis2q.el2 argsMis2q.key2 argsMis2q.gc2) = false
    ∧ (((mainRun argsMis1q).1 = [] ∧ (mainRun argsMis1q).2 ≠ none)
      ∧ mainRun argsMis2q = ([.check1qPassed, .wroteInverse1q, .wroteCompose1q],
          some .mismatch2q)) := by
  have hA : mapMatches argsMis1q.pub1
      (gen_cliff_single_1q_gate_map argsMis1q.el1 argsMis1q.key1 argsMis1q.gc1) = false := by
    decide
  have hB1 : mapMatches argsMis2q.pub1
      (gen_cliff_single_1q_gate_map argsMis2q.el1 argsMis2q.key1 argsMis2q.gc1) = true := by
    decide
  have hB2 : exceptOk (gen_clifford_inverse_1q argsMis2q.el1 argsMis2q.adj1
      argsMis2q.key1) = true := argsSucc_h2
  have hB3 : exceptOk (gen_clifford_compose_1q argsMis2q.el1 argsMis2q.cp1
      argsMis2q.key1) = true := argsSucc_h3
  have hB4 : exceptOk (gen_cliff_single_2q_gate_map argsMis2q.el2 argsMis2q.key2
      argsMis2q.gc2) = true := by
    decide
  have hB5 : mapMatches argsMis2q.pub2
      (gen_cliff_single_2q_gate_map argsMis2q.el2 argsMis2q.key2 argsMis2q.gc2) = false := by
    decide
  exact ⟨hA, hB1, hB2, hB3, hB4, hB5,
    C10_persistence_asymmetry argsMis1q argsMis2q hA hB1 hB2 hB3 hB4 hB5⟩

end CliffordData
